import Mathlib

/-!
# Expense tracker (Main.cpp): shallow embedding and verification

The program keeps a `vector<Expense>` inside `ExpenseTracker`, loads it from
`expenses.txt` on construction, lets the user add and search entries from
standard input, and rewrites the file when the session ends without an
exception.

Conventions of the embedding.

* Text (`std::string`, file contents, standard input) is a `List Char`.
* `double` is modelled by `Double`: the finite values with their sign (zero has
  one too), the infinities and NaN. Reading a decimal text and adding two
  values round to the nearest double, ties to the even significand; a result
  beyond the largest finite double is an infinity, which formatted input
  reports as a failure.
* A member function returns a `Step`: the tracker after the call, what it
  printed, and the exception it threw, if any.
* Every `cout << ... << endl` statement is one `Out` event; `Out.text` gives
  the characters printed for it.
* The stream operations of the C++ standard library that the program calls
  (`>>` into a string or a double, `<<` of a double, `getline`, `ignore`) are
  modelled in the first section, following the classic locale and the default
  stream flags, which the program never changes.
-/

namespace ExpenseApp

/-! ## Standard library streams -/

/-- Whitespace of the classic locale, as `std::isspace` classifies it. -/
def isSpace (c : Char) : Bool :=
  c = ' ' || c = '\t' || c = '\n' || c = '\x0b' || c = '\x0c' || c = '\r'

/-- Decimal digit test. -/
def isDigit (c : Char) : Bool := decide ('0' ≤ c) && decide (c ≤ '9')

/-- Value of a run of decimal digits, most significant first. -/
def digitsToNat (ds : List Char) : Nat :=
  ds.foldl (fun n c => 10 * n + (c.toNat - 48)) 0

/-- What formatted input keeps of a decimal numeral: its sign, the digits of
the mantissa read as one natural number, and the power of ten to apply. -/
structure Numeral where
  neg : Bool
  mant : Nat
  exp : Int
deriving DecidableEq

/-- The magnitude of the number a numeral denotes. -/
def Numeral.magnitude (n : Numeral) : ℚ := (n.mant : ℚ) * (10 : ℚ) ^ n.exp

/-- A value of the type `double`: a finite number `(-1) ^ neg * mag` with
`0 ≤ mag` (so that zero has a sign), an infinity, or NaN. -/
inductive Double where
  | finite (neg : Bool) (mag : ℚ)
  | inf (neg : Bool)
  | nan
deriving DecidableEq

/-- The largest finite double, `(2 ^ 53 - 1) * 2 ^ 971`. -/
def maxDouble : ℚ := (2 ^ 53 - 1) * 2 ^ 971

/-- Nearest integer to `n / d`, ties to the even neighbour. -/
def roundHalfEven (n d : Nat) : Nat :=
  let q := n / d
  let r := n % d
  if 2 * r < d then q
  else if d < 2 * r then q + 1
  else if q % 2 = 0 then q else q + 1

/-- Number of binary digits of a natural number, by repeated halving; the
first argument bounds the number of digits. -/
def bitLengthAux : Nat → Nat → Nat
  | 0, _ => 0
  | fuel + 1, n => if n = 0 then 0 else bitLengthAux fuel (n / 2) + 1

/-- Number of binary digits of a natural number. -/
def bitLength (n : Nat) : Nat := bitLengthAux n n

/-- Binary exponent of the positive ratio `n / d`: the integer `e` with
`2 ^ e ≤ n / d < 2 ^ (e + 1)`. -/
def binaryExponent (n d : Nat) : Int :=
  let e : Int := (bitLength n : Int) - (bitLength d : Int)
  if d * 2 ^ e.toNat ≤ n * 2 ^ (-e).toNat then e else e - 1

/-- Rounding of a magnitude to the grid of the doubles, the exponent range
unbounded above: 53 significant bits, or multiples of `2 ^ (-1074)` below
`2 ^ (-1022)`; ties go to the even significand. -/
def roundMagnitude (q : ℚ) : ℚ :=
  if q.num = 0 then 0
  else
    let e := max (binaryExponent q.num.natAbs q.den) (-1022) - 52
    (roundHalfEven (q.num.natAbs * 2 ^ (-e).toNat) (q.den * 2 ^ e.toNat) : ℚ) * (2 : ℚ) ^ e

/-- The double nearest to the number of sign `neg` and magnitude `q`; an
infinity when the rounded magnitude is beyond the largest finite double. -/
def roundToDouble (neg : Bool) (q : ℚ) : Double :=
  if maxDouble < roundMagnitude q then .inf neg else .finite neg (roundMagnitude q)

/-- The rational value of a finite double; 0 stands in for the others. -/
def Double.toRat : Double → ℚ
  | .finite neg mag => if neg then -mag else mag
  | _ => 0

/-- The test `x < 0` on doubles. -/
def Double.ltZero : Double → Bool
  | .finite neg mag => neg && decide (0 < mag)
  | .inf neg => neg
  | .nan => false

/-- The sum `x + y` of two doubles. -/
def Double.add : Double → Double → Double
  | .finite n1 m1, .finite n2 m2 =>
    if (Double.finite n1 m1).toRat + (Double.finite n2 m2).toRat = 0 then .finite (n1 && n2) 0
    else
      roundToDouble (decide ((Double.finite n1 m1).toRat + (Double.finite n2 m2).toRat < 0))
        |(Double.finite n1 m1).toRat + (Double.finite n2 m2).toRat|
  | .finite _ _, .inf b => .inf b
  | .inf a, .finite _ _ => .inf a
  | .inf a, .inf b => if a = b then .inf a else .nan
  | .nan, _ => .nan
  | _, .nan => .nan

/-- An optional sign in front of a mantissa or an exponent. -/
def scanSign : List Char → Bool × List Char
  | [] => (false, [])
  | c :: r => if c = '-' then (true, r) else if c = '+' then (false, r) else (false, c :: r)

/-- The fraction after the integer digits: a point and the digits after it. -/
def scanFraction : List Char → List Char × List Char
  | [] => ([], [])
  | c :: r => if c = '.' then r.span isDigit else ([], c :: r)

/-- The exponent part: nothing, or `e`/`E`, an optional sign and at least one
digit. An `e` that no digit follows makes the whole extraction fail. -/
def scanExponent : List Char → Option (Int × List Char)
  | [] => some (0, [])
  | c :: r =>
    if c = 'e' ∨ c = 'E' then
      let sr := scanSign r
      let dr := sr.2.span isDigit
      if dr.1 = [] then none
      else some (if sr.1 then -(digitsToNat dr.1 : Int) else (digitsToNat dr.1 : Int), dr.2)
    else some (0, c :: r)

/-- The numeral at the head of the input, no whitespace skipped: optional
sign, digits with an optional point (at least one digit in all), optional
exponent. It returns the numeral and the unread rest. -/
def scanNumeral (s : List Char) : Option (Numeral × List Char) :=
  let sr := scanSign s
  let ir := sr.2.span isDigit
  let fr := scanFraction ir.2
  if ir.1 = [] ∧ fr.1 = [] then none
  else
    match scanExponent fr.2 with
    | none => none
    | some (e, rest) =>
      some (⟨sr.1, digitsToNat (ir.1 ++ fr.1), e - (fr.1.length : Int)⟩, rest)

/-- The conversion of the numeral read to the value stored: the nearest
double, or nothing when it is beyond the range of the doubles. -/
def storeDouble (n : Numeral) : Option Double :=
  match roundToDouble n.neg n.magnitude with
  | .finite neg mag => some (.finite neg mag)
  | _ => none

/-- Model of `stream >> d` for a `double d`: skips leading whitespace, reads the
longest decimal numeral, leaves what follows it in the stream, and stores the
double nearest to the numeral (a signed zero on underflow). `none` is the fail
state of the stream: no numeral, or a numeral beyond the range of the doubles.
Hexadecimal numerals and the texts `inf` and `nan` are not read as numbers. -/
def extractDouble (s : List Char) : Option (Double × List Char) :=
  match scanNumeral (s.dropWhile isSpace) with
  | none => none
  | some (n, rest) =>
    match storeDouble n with
    | none => none
    | some v => some (v, rest)

/-- Model of `stream >> str` for a `std::string`: skips leading whitespace and
reads up to the next whitespace; fails when only whitespace is left. -/
def extractWord (s : List Char) : Option (List Char × List Char) :=
  match s.dropWhile isSpace with
  | [] => none
  | c :: r => some ((c :: r).span (fun x => !isSpace x))

/-- Decimal digits of a natural number, most significant first, by repeated
division; the first argument bounds the number of digits. -/
def natDigitsAux : Nat → Nat → List Char → List Char
  | 0, _, acc => acc
  | fuel + 1, n, acc =>
    if n < 10 then Char.ofNat (48 + n) :: acc
    else natDigitsAux fuel (n / 10) (Char.ofNat (48 + n % 10) :: acc)

/-- Decimal digits of a natural number. -/
def natDigits (n : Nat) : List Char := natDigitsAux (n + 1) n []

/-- Drops the zeros at the end of a run of digits. -/
def stripZeros (ds : List Char) : List Char :=
  (ds.reverse.dropWhile (fun c => c = '0')).reverse

/-- Least `k` not above the first argument with `d ≤ n * 10 ^ k`. -/
def scaleUp : Nat → Nat → Nat → Nat
  | 0, _, _ => 0
  | fuel + 1, n, d => if d ≤ n then 0 else scaleUp fuel (n * 10) d + 1

/-- Decimal exponent of the positive ratio `n / d`: the integer `x` with
`10 ^ x ≤ n / d < 10 ^ (x + 1)`. -/
def decimalExponent (n d : Nat) : Int :=
  if d ≤ n then ((natDigits (n / d)).length : Int) - 1
  else -(scaleUp d n d : Int)

/-- Six significant digits of the positive ratio `n / d`: a mantissa `m` with
`100000 ≤ m ≤ 999999` and the decimal exponent `x` of its leading digit, so
that `n / d` rounds to `m * 10 ^ (x - 5)`. -/
def sixDigits (n d : Nat) : Nat × Int :=
  let x := decimalExponent n d
  let m := roundHalfEven (n * 10 ^ (5 - x).toNat) (d * 10 ^ (x - 5).toNat)
  if m = 1000000 then (100000, x + 1) else (m, x)

/-- Fixed notation of `m * 10 ^ (x - 5)` for a six-digit `m` and
`-4 ≤ x < 6`, trailing zeros and a bare point removed. -/
def fixedNotation (m : Nat) (x : Int) : List Char :=
  let ds := natDigits m
  if 0 ≤ x then
    let frac := stripZeros (ds.drop (x.toNat + 1))
    ds.take (x.toNat + 1) ++ (if frac = [] then [] else '.' :: frac)
  else
    '0' :: '.' :: (List.replicate ((-x).toNat - 1) '0' ++ stripZeros ds)

/-- Scientific notation of `m * 10 ^ (x - 5)` for a six-digit `m`: one digit,
the remaining digits without trailing zeros, and an exponent of at least two
digits with its sign. -/
def sciNotation (m : Nat) (x : Int) : List Char :=
  let ds := natDigits m
  let frac := stripZeros (ds.drop 1)
  let ex := natDigits x.natAbs
  ds.take 1 ++ (if frac = [] then [] else '.' :: frac)
    ++ ('e' :: (if x < 0 then '-' else '+') :: (if ex.length < 2 then '0' :: ex else ex))

/-- The `%g` conversion, precision six, of a magnitude. -/
def formatMagnitude (mag : ℚ) : List Char :=
  if mag = 0 then ['0']
  else
    let mx := sixDigits mag.num.natAbs mag.den
    if -4 ≤ mx.2 ∧ mx.2 < 6 then fixedNotation mx.1 mx.2 else sciNotation mx.1 mx.2

/-- Model of `stream << d` for a `double d` with the flags and the precision
(six) that a stream has by default: the `%g` conversion of the exact value. -/
def insertDouble : Double → List Char
  | .finite neg mag => if neg then '-' :: formatMagnitude mag else formatMagnitude mag
  | .inf neg => if neg then "-inf".toList else "inf".toList
  | .nan => "nan".toList

/-- Standard input: the unread characters, and whether the stream is still
good (no end-of-file or failure met so far). -/
structure Cin where
  good : Bool
  buf : List Char
deriving DecidableEq

/-- Model of `getline(cin, str)`: on a stream that is not good `str` keeps its
value; otherwise `str` becomes the characters before the next newline, which
is consumed, and meeting the end of input leaves the stream not good. -/
def getline (cin : Cin) (str : List Char) : Cin × List Char :=
  if cin.good then
    match cin.buf.span (fun c => c != '\n') with
    | (line, []) => (⟨false, []⟩, line)
    | (line, _ :: rest) => (⟨true, rest⟩, line)
  else (cin, str)

/-- Model of `cin >> str` for a `std::string`: when the stream is not good, or
only whitespace is left, `str` keeps its value. -/
def extractString (cin : Cin) (str : List Char) : Cin × List Char :=
  if cin.good then
    match extractWord cin.buf with
    | none => (⟨false, []⟩, str)
    | some (word, []) => (⟨false, []⟩, word)
    | some (word, c :: rest) => (⟨true, c :: rest⟩, word)
  else (cin, str)

/-- Model of `cin.ignore(numeric_limits<streamsize>::max(), '\n')`: discards
the rest of the line and its newline. -/
def ignoreLine (cin : Cin) : Cin :=
  if cin.good then
    match cin.buf.dropWhile (fun c => c != '\n') with
    | [] => ⟨false, []⟩
    | _ :: rest => ⟨true, rest⟩
  else cin

/-! ## The program -/

/-- The record `struct Expense`. -/
structure Expense where
  category : List Char
  amount : Double
deriving DecidableEq

/-- The exceptions the program throws and catches. -/
inductive Exn where
  | invalid_argument
  | out_of_range
  | runtime_error
deriving DecidableEq

/-- One event per output statement of the program. -/
inductive Out where
  | instructions
  | welcomeBack
  | startingFresh
  | savedToFile
  | added (e : Expense)
  | entry (e : Expense)
  | notFound (searchCategory : List Char)
  | total (t : Double)
  | noExpenses
  | recordedHeader
  | promptCategory
  | promptSearch
  | promptAmount (category : List Char)
  | what (e : Exn)
  | greatJob
deriving DecidableEq

/-- The message an exception carries (`e.what()`). -/
def Exn.message : Exn → List Char
  | .invalid_argument =>
    "Error: Invalid input. Please enter a numeric value for the amount.".toList
  | .out_of_range => "Error: Expense amount cannot be negative.".toList
  | .runtime_error =>
    "Error: No expenses recorded. Please add expenses before calculating the total.".toList

/-- The characters each output statement prints. -/
def Out.text : Out → List Char
  | .instructions =>
    ("Personal Expense Tracker to keep you organized and well-balanced!\n" ++
      "Log your expenses by categorizing them and adding the amount. " ++
      "Type 'done' when ready for a summary.\n\n").toList
  | .welcomeBack =>
    ("Welcome back! Your list of expenses are stored in expenses.txt for whenever " ++
      "you may want to see your progress. Continue to add below:\n").toList
  | .startingFresh => "No existing expense file found. Starting fresh.\n".toList
  | .savedToFile => "Expenses saved to file.\n".toList
  | .added e =>
    "Added expense: ".toList ++ e.category ++ " - $".toList ++ insertDouble e.amount ++ ['\n']
  | .entry e => "- ".toList ++ e.category ++ ": $".toList ++ insertDouble e.amount ++ ['\n']
  | .notFound c => "No expenses found in category: ".toList ++ c ++ ['\n']
  | .total t => "\nTotal spending: $".toList ++ insertDouble t ++ ['\n']
  | .noExpenses => "No expenses recorded yet.\n".toList
  | .recordedHeader => "\nRecorded Expenses:\n".toList
  | .promptCategory =>
    ("\nEnter an expense category (or type 'SEARCH' to look up a category. " ++
      "Otherwise 'DONE' to finish): ").toList
  | .promptSearch => "Enter category to search: ".toList
  | .promptAmount c => "Enter the amount spent on ".toList ++ c ++ ": $".toList
  | .what e => e.message ++ ['\n']
  | .greatJob => "\nGreat job on staying on top of your finances!\n".toList

/-- The text `displayInstructions` prints. -/
def displayInstructions : List Out := [.instructions]

/-- The class `ExpenseTracker`: its only member is the vector of expenses. -/
structure ExpenseTracker where
  expenses : List Expense
deriving DecidableEq

/-- Result of a member function: the tracker afterwards, the output, and the
exception thrown, if any. -/
structure Step where
  tracker : ExpenseTracker
  out : List Out
  thrown : Option Exn
deriving DecidableEq

/-- The loop `while (file >> expense.category >> expense.amount)` of
`loadExpensesFromFile`: the expenses pushed, in order. The first argument
bounds the number of iterations. -/
def loadLoop : Nat → List Char → List Expense
  | 0, _ => []
  | fuel + 1, s =>
    match extractWord s with
    | none => []
    | some (category, s1) =>
      match extractDouble s1 with
      | none => []
      | some (amount, s2) => ⟨category, amount⟩ :: loadLoop fuel s2

/-- The text of a file read to its end: every iteration of the loop consumes
at least one character, so the length of the content bounds the iterations. -/
def readExpenses (content : List Char) : List Expense :=
  loadLoop (content.length + 1) content

namespace ExpenseTracker

/-- `loadExpensesFromFile`: `file` is the content of the file, `none` when it
cannot be opened. -/
def loadExpensesFromFile (t : ExpenseTracker) (file : Option (List Char)) : Step :=
  match file with
  | some content => ⟨⟨t.expenses ++ readExpenses content⟩, [.welcomeBack], none⟩
  | none => ⟨t, [.startingFresh], none⟩

/-- The characters `saveExpensesToFile` writes. -/
def fileText : List Expense → List Char
  | [] => []
  | e :: es => e.category ++ ' ' :: (insertDouble e.amount ++ '\n' :: fileText es)

/-- `saveExpensesToFile`: the new content of the file and the output. -/
def saveExpensesToFile (t : ExpenseTracker) : List Char × List Out :=
  (fileText t.expenses, [.savedToFile])

/-- The constructor: an empty vector, then `loadExpensesFromFile`. -/
def create (file : Option (List Char)) : Step :=
  loadExpensesFromFile ⟨[]⟩ file

/-- `addExpense`. -/
def addExpense (t : ExpenseTracker) (category inputAmount : List Char) : Step :=
  match extractDouble inputAmount with
  | none => ⟨t, [], some .invalid_argument⟩
  | some (amount, _) =>
    if amount.ltZero then ⟨t, [], some .out_of_range⟩
    else
      let expense : Expense := ⟨category, amount⟩
      ⟨⟨t.expenses ++ [expense]⟩, [.added expense], none⟩

/-- The loop of `searchExpense`: the lines printed and the flag `found`. -/
def searchLoop (searchCategory : List Char) : List Expense → Bool → List Out × Bool
  | [], found => ([], found)
  | expense :: rest, found =>
    if expense.category = searchCategory then
      let r := searchLoop searchCategory rest true
      (.entry expense :: r.1, r.2)
    else searchLoop searchCategory rest found

/-- `searchExpense`. -/
def searchExpense (t : ExpenseTracker) (searchCategory : List Char) : Step :=
  let r := searchLoop searchCategory t.expenses false
  ⟨t, if r.2 then r.1 else r.1 ++ [.notFound searchCategory], none⟩

/-- `calculateTotal`. -/
def calculateTotal (t : ExpenseTracker) : Step :=
  if t.expenses = [] then ⟨t, [], some .runtime_error⟩
  else
    let total := t.expenses.foldl (fun total expense => total.add expense.amount)
      (Double.finite false 0)
    ⟨t, [.total total], none⟩

/-- `displayExpenses`. -/
def displayExpenses (t : ExpenseTracker) : Step :=
  if t.expenses = [] then ⟨t, [.noExpenses], none⟩
  else ⟨t, .recordedHeader :: t.expenses.map .entry, none⟩

/-- `saveToFile`. -/
def saveToFile (t : ExpenseTracker) : List Char × List Out :=
  saveExpensesToFile t

end ExpenseTracker

/-- How the `while (true)` loop of `main` is left: by `break` on `DONE`, or by
an exception that `addExpense` threw. -/
inductive LoopExit where
  | done
  | threw (e : Exn)
deriving DecidableEq

/-- State when the entry loop of `main` is left. -/
structure LoopEnd where
  tracker : ExpenseTracker
  out : List Out
  exit : LoopExit
deriving DecidableEq

/-- The `while (true)` loop of `main`. The first argument bounds the number of
iterations; `none` means the bound was reached with the loop still running. -/
def entryLoop : Nat → ExpenseTracker → Cin → List Char → List Char → List Out → Option LoopEnd
  | 0, _, _, _, _, _ => none
  | fuel + 1, tracker, cin, category, amount, out =>
    let out := out ++ [.promptCategory]
    let gc := getline cin category
    if gc.2 = "DONE".toList then some ⟨tracker, out, .done⟩
    else if gc.2 = "SEARCH".toList then
      let out := out ++ [.promptSearch]
      let gs := getline gc.1 []
      let r := tracker.searchExpense gs.2
      entryLoop fuel r.tracker gs.1 gc.2 amount (out ++ r.out)
    else
      let out := out ++ [.promptAmount gc.2]
      let ga := extractString gc.1 amount
      let cin := ignoreLine ga.1
      let r := tracker.addExpense gc.2 ga.2
      match r.thrown with
      | some e => some ⟨r.tracker, out ++ r.out, .threw e⟩
      | none => entryLoop fuel r.tracker cin gc.2 ga.2 (out ++ r.out)

/-- What a finished run of `main` leaves behind. -/
structure Run where
  tracker : ExpenseTracker
  out : List Out
  exit : LoopExit
  caught : Option Exn
  success : Bool
  file : Option (List Char)
deriving DecidableEq

/-- The part of the `try` block after the loop, for a loop left by `break`:
`displayExpenses` then `calculateTotal`. -/
def summary (tracker : ExpenseTracker) : Step :=
  let d := tracker.displayExpenses
  let c := d.tracker.calculateTotal
  ⟨c.tracker, d.out ++ c.out, c.thrown⟩

/-- The end of `main`: the three `catch` blocks, then the save when `success`
is still true. `file` is the content of `expenses.txt` at the start. -/
def finish (file : Option (List Char)) (tracker : ExpenseTracker) (out : List Out)
    (exit : LoopExit) (thrown : Option Exn) : Run :=
  match thrown with
  | some e => ⟨tracker, out ++ [.what e], exit, some e, false, file⟩
  | none =>
    let s := tracker.saveToFile
    ⟨tracker, out ++ s.2 ++ [.greatJob], exit, none, true, some s.1⟩

/-- The function `main`: `file` is the content of `expenses.txt` at the start
(`none` when absent), `stdin` the characters on standard input. -/
def main (fuel : Nat) (file : Option (List Char)) (stdin : List Char) : Option Run :=
  let c := ExpenseTracker.create file
  let out := displayInstructions ++ c.out
  match entryLoop fuel c.tracker ⟨true, stdin⟩ [] [] out with
  | none => none
  | some l =>
    match l.exit with
    | .threw e => some (finish file l.tracker l.out l.exit (some e))
    | .done =>
      let s := summary l.tracker
      some (finish file s.tracker (l.out ++ s.out) l.exit s.thrown)

/-! ## Notions used to state the properties -/

/-- Removes one leading sign character, if there is one. -/
def dropSign : List Char → List Char
  | [] => []
  | c :: r => if c = '+' ∨ c = '-' then r else c :: r

/-- An exponent part: `e` or `E`, an optional sign, and one or more digits. -/
def isExponentPart : List Char → Bool
  | [] => false
  | c :: r => (c = 'e' || c = 'E') && !(dropSign r).isEmpty && (dropSign r).all isDigit

/-- A numeric (decimal) string, the whole of it: an optional sign, digits with
an optional decimal point and at least one digit, an optional exponent part,
and nothing else. -/
def isDecimalString (s : List Char) : Bool :=
  let body := dropSign s
  let ip := body.takeWhile isDigit
  let r1 := body.dropWhile isDigit
  let r2 := match r1 with
    | [] => []
    | c :: r => if c = '.' then r else c :: r
  let fp := r2.takeWhile isDigit
  let r3 := r2.dropWhile isDigit
  !(ip.isEmpty && fp.isEmpty) && (r3.isEmpty || isExponentPart r3)

/-- Whether a text holds an exponent mark. -/
def hasExponentMark (pre : List Char) : Bool := pre.any (fun c => c = 'e' || c = 'E')

/-- Whether a text holds a decimal point. -/
def hasPoint (pre : List Char) : Bool := pre.any (fun c => c = '.')

/-- Whether the number written by the numeric string `pre` ends there when
`rest` follows: the next character, if any, is not a digit, is a point only
after a point or an exponent, and is an exponent mark only after an
exponent. -/
def endsNumber (pre rest : List Char) : Bool :=
  match rest with
  | [] => true
  | c :: _ =>
    !isDigit c && (c != '.' || hasPoint pre || hasExponentMark pre)
      && (!(c = 'e' || c = 'E') || hasExponentMark pre)

/-- Whether the text `s` begins with a number that ends after `k` characters:
its first `k` characters are a numeric string and the number ends there. -/
def readsAt (s : List Char) (k : Nat) : Bool :=
  isDecimalString (s.take k) && endsNumber (s.take k) (s.drop k)

/-- The whitespace-separated tokens of a text, read left to right; the first
argument holds the characters of the token being read, last one first. -/
def tokensFrom : List Char → List Char → List (List Char)
  | cur, [] => if cur = [] then [] else [cur.reverse]
  | cur, c :: r =>
    if isSpace c then
      (if cur = [] then tokensFrom [] r else cur.reverse :: tokensFrom [] r)
    else tokensFrom (c :: cur) r

/-- The whitespace-separated tokens of a text. -/
def tokens (s : List Char) : List (List Char) := tokensFrom [] s

/-- The reading of a file by whole tokens: the tokens two at a time, a category
and an amount, up to and not including the first pair whose amount token is
missing or is not, the whole of it, a numeral that can be read. -/
def tokenPairs : List (List Char) → List Expense
  | c :: a :: rest =>
    match extractDouble a with
    | some (v, []) => ⟨c, v⟩ :: tokenPairs rest
    | _ => []
  | _ => []

/-- The reading of a file the extraction loop performs, told on tokens: a
category is a whole token; the amount is read from the start of the next
token, and what is left of that token after the numeral is put back as a
token of its own; the reading ends at the first token from which no amount
can be read. The first argument bounds the number of pairs. -/
def splitPairs : Nat → List (List Char) → List Expense
  | 0, _ => []
  | _ + 1, [] => []
  | _ + 1, [_] => []
  | fuel + 1, c :: a :: rest =>
    match extractDouble a with
    | none => []
    | some (v, []) => ⟨c, v⟩ :: splitPairs fuel rest
    | some (v, x :: rem) => ⟨c, v⟩ :: splitPairs fuel ((x :: rem) :: rest)

/-- The double whose value is exactly the rational `q`, when there is one. -/
def Double.ofRat (q : ℚ) : Double := .finite (decide (q < 0)) |q|

/-- A rational number that a finite double holds exactly. -/
def representable (q : ℚ) : Prop := roundMagnitude |q| = |q| ∧ |q| ≤ maxDouble

/-- The exact sum of the values of the amounts. -/
def exactSum (es : List Expense) : ℚ := (es.map (fun e => e.amount.toRat)).sum

/-- A finite double kept in the normal form: the magnitude is not negative. -/
def Double.isFinite : Double → Prop
  | .finite _ mag => 0 ≤ mag
  | _ => False

/-- Characters that can end a numeral: none of the characters a numeral is
made of. -/
def stops (c : Char) : Prop :=
  isDigit c = false ∧ c ≠ '.' ∧ c ≠ 'e' ∧ c ≠ 'E' ∧ c ≠ '+' ∧ c ≠ '-'

/-! ## Lemmas on the stream operations -/

open ExpenseTracker

theorem span_append_stop (p : Char → Bool) (x : List Char) (c : Char) (r : List Char)
    (hc : p c = false) :
    (x ++ c :: r).span p = ((x.span p).1, (x.span p).2 ++ c :: r) := by
  induction x with
  | nil => simp [List.span_eq_take_drop, List.takeWhile, List.dropWhile, hc]
  | cons a x ih =>
    simp only [List.span_eq_take_drop] at ih ⊢
    by_cases ha : p a = true
    · simp [List.takeWhile_cons, List.dropWhile_cons, ha] at ih ⊢
      exact ih
    · simp [List.takeWhile_cons, List.dropWhile_cons, ha]

theorem span_fst_append_snd (p : Char → Bool) (x : List Char) :
    (x.span p).1 ++ (x.span p).2 = x := by
  simp [List.span_eq_take_drop]

theorem stops_of_isSpace (c : Char) (h : isSpace c = true) : stops c := by
  simp only [isSpace, Bool.or_eq_true, decide_eq_true_eq] at h
  rcases h with ((((h | h) | h) | h) | h) | h <;> subst h <;> unfold stops <;> decide

theorem scanSign_append (x : List Char) (c : Char) (r : List Char) (hc : stops c) :
    scanSign (x ++ c :: r) = ((scanSign x).1, (scanSign x).2 ++ c :: r) := by
  obtain ⟨_, _, _, _, hp, hm⟩ := hc
  cases x with
  | nil => simp [scanSign, hp, hm]
  | cons a x =>
    by_cases h1 : a = '-'
    · simp [scanSign, h1]
    · by_cases h2 : a = '+'
      · simp [scanSign, h2]
      · simp [scanSign, h1, h2]

theorem scanFraction_append (x : List Char) (c : Char) (r : List Char) (hc : stops c) :
    scanFraction (x ++ c :: r) = ((scanFraction x).1, (scanFraction x).2 ++ c :: r) := by
  obtain ⟨hd, hdot, _, _, _, _⟩ := hc
  cases x with
  | nil => simp [scanFraction, hdot]
  | cons a x =>
    by_cases h1 : a = '.'
    · simp only [List.cons_append, scanFraction, h1, if_true]
      exact span_append_stop isDigit x c r hd
    · simp [scanFraction, h1]

theorem scanExponent_append (x : List Char) (c : Char) (r : List Char) (hc : stops c) :
    scanExponent (x ++ c :: r)
      = (scanExponent x).map (fun p => (p.1, p.2 ++ c :: r)) := by
  have hc' := hc
  obtain ⟨hd, _, he, hE, _, _⟩ := hc
  cases x with
  | nil => simp [scanExponent, he, hE]
  | cons a x =>
    by_cases h1 : a = 'e' ∨ a = 'E'
    · simp only [List.cons_append, scanExponent, h1, if_true]
      rw [scanSign_append x c r hc']
      simp only []
      rw [span_append_stop isDigit _ c r hd]
      simp only []
      by_cases h2 : ((scanSign x).2.span isDigit).1 = []
      · simp only [h2, if_true, Option.map]
      · simp only [h2, if_false, Option.map]
    · simp [scanExponent, h1]

theorem scanNumeral_append (x : List Char) (c : Char) (r : List Char) (hc : stops c) :
    scanNumeral (x ++ c :: r)
      = (scanNumeral x).map (fun p => (p.1, p.2 ++ c :: r)) := by
  have hd := hc.1
  simp only [scanNumeral]
  rw [scanSign_append x c r hc]
  simp only []
  rw [span_append_stop isDigit _ c r hd]
  simp only []
  rw [scanFraction_append _ c r hc]
  simp only []
  rw [scanExponent_append _ c r hc]
  by_cases h : ((scanSign x).2.span isDigit).1 = []
      ∧ (scanFraction ((scanSign x).2.span isDigit).2).1 = []
  · rw [if_pos h, if_pos h]; rfl
  · rw [if_neg h, if_neg h]
    cases scanExponent (scanFraction ((scanSign x).2.span isDigit).2).2 with
    | none => rfl
    | some p => rfl

theorem takeWhile_dropWhile_append (p : Char → Bool) (a b : List Char)
    (ha : ∀ c ∈ a, p c = true) (hb : ∀ c r, b = c :: r → p c = false) :
    (a ++ b).takeWhile p = a ∧ (a ++ b).dropWhile p = b := by
  induction a with
  | nil =>
    cases b with
    | nil => simp
    | cons c r => simp [List.takeWhile_cons, List.dropWhile_cons, hb c r rfl]
  | cons x a ih =>
    have hx : p x = true := ha x (List.mem_cons_self _ _)
    have := ih (fun c hc => ha c (List.mem_cons_of_mem _ hc))
    simp [List.takeWhile_cons, List.dropWhile_cons, hx, this]

theorem span_shape (p : Char → Bool) (s : List Char) :
    s = (s.span p).1 ++ (s.span p).2 ∧ (∀ c ∈ (s.span p).1, p c = true)
      ∧ (∀ c r, (s.span p).2 = c :: r → p c = false) := by
  rw [List.span_eq_take_drop]
  refine ⟨by simp, fun c hc => List.mem_takeWhile_imp hc, ?_⟩
  intro c r h
  induction s with
  | nil => simp at h
  | cons x s ih =>
    by_cases hx : p x = true
    · simp [List.dropWhile_cons, hx] at h
      exact ih h
    · simp [List.dropWhile_cons, hx] at h
      rw [← h.1]; simpa using hx

theorem scanSign_shape (s : List Char) :
    ∃ sg, s = sg ++ (scanSign s).2
      ∧ ∀ t u, (scanSign s).2 = t ++ u → t ≠ [] → dropSign (sg ++ t) = t := by
  cases s with
  | nil => exact ⟨[], by simp [scanSign], fun t u h ht => by simp [scanSign] at h; exact absurd h.1 ht⟩
  | cons c r =>
    by_cases h1 : c = '-'
    · refine ⟨['-'], by simp [scanSign, h1], fun t u _ _ => by simp [dropSign]⟩
    · by_cases h2 : c = '+'
      · refine ⟨['+'], by simp [scanSign, h2], fun t u _ _ => by simp [dropSign]⟩
      · refine ⟨[], by simp [scanSign, h1, h2], fun t u h ht => ?_⟩
        simp only [scanSign, h1, h2, if_false] at h
        cases t with
        | nil => exact absurd rfl ht
        | cons x t =>
          simp only [List.cons_append, List.cons.injEq] at h
          obtain ⟨hx, _⟩ := h
          subst hx
          simp [dropSign, h1, h2]

theorem scanExponent_shape (s rest : List Char) (e : Int)
    (h : scanExponent s = some (e, rest)) :
    ∃ ex, s = ex ++ rest
      ∧ ((ex = [] ∧ ∀ c t, rest = c :: t → c ≠ 'e' ∧ c ≠ 'E')
        ∨ (isExponentPart ex = true ∧ ∀ c t, rest = c :: t → isDigit c = false)) := by
  cases s with
  | nil =>
    simp [scanExponent] at h
    exact ⟨[], by simp [h.2], Or.inl ⟨rfl, fun c t hct => by rw [h.2] at hct; cases hct⟩⟩
  | cons c r =>
    by_cases hc : c = 'e' ∨ c = 'E'
    · simp only [scanExponent, hc, if_true] at h
      by_cases hd : ((scanSign r).2.span isDigit).1 = []
      · rw [if_pos hd] at h; cases h
      · rw [if_neg hd] at h
        simp only [Option.some.injEq, Prod.mk.injEq] at h
        obtain ⟨sg, hsg, hdrop⟩ := scanSign_shape r
        obtain ⟨hsplit, hall, hstop⟩ := span_shape isDigit (scanSign r).2
        refine ⟨c :: (sg ++ ((scanSign r).2.span isDigit).1), ?_,
          Or.inr ⟨?_, fun x t hxt => hstop x t (by rw [h.2]; exact hxt)⟩⟩
        · rw [← h.2]
          simp only [List.cons_append, List.append_assoc, List.cons.injEq, true_and]
          rw [← hsplit]; exact hsg
        · have hds := hdrop _ _ hsplit hd
          simp only [isExponentPart, hds, Bool.and_eq_true, Bool.or_eq_true, decide_eq_true_eq,
            Bool.not_eq_true', List.isEmpty_eq_false_iff_exists_mem, List.all_eq_true]
          refine ⟨⟨hc, ?_⟩, hall⟩
          cases hl : ((scanSign r).2.span isDigit).1 with
          | nil => exact absurd hl hd
          | cons x l => exact ⟨x, List.mem_cons_self _ _⟩
    · simp only [scanExponent, hc, if_false, Option.some.injEq, Prod.mk.injEq] at h
      refine ⟨[], by simp [h.2], Or.inl ⟨rfl, fun x t hxt => ?_⟩⟩
      rw [← h.2] at hxt
      simp only [List.cons.injEq] at hxt
      rw [← hxt.1]
      exact ⟨fun h1 => hc (Or.inl h1), fun h2 => hc (Or.inr h2)⟩

theorem scanFraction_shape (s : List Char) :
    ∃ fc, s = fc ++ (scanFraction s).2
      ∧ (∀ c ∈ (scanFraction s).1, isDigit c = true)
      ∧ ((fc = [] ∧ (scanFraction s).1 = [] ∧ ∀ c t, (scanFraction s).2 = c :: t → c ≠ '.')
        ∨ (fc = '.' :: (scanFraction s).1
          ∧ ∀ c t, (scanFraction s).2 = c :: t → isDigit c = false)) := by
  cases s with
  | nil => exact ⟨[], by simp [scanFraction]⟩
  | cons c r =>
    by_cases hc : c = '.'
    · obtain ⟨hsplit, hall, hstop⟩ := span_shape isDigit r
      refine ⟨'.' :: (r.span isDigit).1, ?_, ?_, Or.inr ⟨?_, ?_⟩⟩
      · simp only [scanFraction, hc, if_true, List.cons_append, List.cons.injEq, true_and]
        exact hsplit
      · simpa only [scanFraction, hc, if_true] using hall
      · simp only [scanFraction, hc, if_true]
      · simpa only [scanFraction, hc, if_true] using hstop
    · refine ⟨[], by simp [scanFraction, hc], by simp [scanFraction, hc], Or.inl ⟨rfl, ?_, ?_⟩⟩
      · simp [scanFraction, hc]
      · intro x t hxt
        simp only [scanFraction, hc, if_false, List.cons.injEq] at hxt
        rw [← hxt.1]; exact hc

/-- The parts of the text `scanNumeral` consumed: sign, integer digits, point
and fraction digits, exponent part; and what the first unread character
cannot be. -/
theorem scanNumeral_shape (s rest : List Char) (n : Numeral)
    (h : scanNumeral s = some (n, rest)) :
    ∃ sg ip fc fd ex, s = sg ++ (ip ++ (fc ++ ex)) ++ rest
      ∧ (sg = [] ∨ sg = ['+'] ∨ sg = ['-'])
      ∧ dropSign (sg ++ (ip ++ (fc ++ ex))) = ip ++ (fc ++ ex)
      ∧ (∀ c ∈ ip, isDigit c = true) ∧ (∀ c ∈ fd, isDigit c = true)
      ∧ ((fc = [] ∧ fd = []) ∨ fc = '.' :: fd)
      ∧ ¬ (ip = [] ∧ fd = [])
      ∧ (ex = [] ∨ isExponentPart ex = true)
      ∧ (∀ c t, rest = c :: t → isDigit c = false)
      ∧ (fc = [] → ex = [] → ∀ c t, rest = c :: t → c ≠ '.')
      ∧ (ex = [] → ∀ c t, rest = c :: t → c ≠ 'e' ∧ c ≠ 'E') := by
  simp only [scanNumeral] at h
  by_cases hne : ((scanSign s).2.span isDigit).1 = []
      ∧ (scanFraction ((scanSign s).2.span isDigit).2).1 = []
  · rw [if_pos hne] at h; simp at h
  · rw [if_neg hne] at h
    cases hex : scanExponent (scanFraction ((scanSign s).2.span isDigit).2).2 with
    | none => rw [hex] at h; cases h
    | some p =>
      obtain ⟨e, rest'⟩ := p
      rw [hex] at h
      simp only [Option.some.injEq, Prod.mk.injEq] at h
      obtain ⟨_, hrest⟩ := h
      subst hrest
      obtain ⟨sg, hsg, hdrop⟩ := scanSign_shape s
      obtain ⟨hsplit, hall, hstop⟩ := span_shape isDigit (scanSign s).2
      obtain ⟨fc, hfc, hfall, hfcase⟩ := scanFraction_shape ((scanSign s).2.span isDigit).2
      obtain ⟨ex, hexs, hexcase⟩ := scanExponent_shape _ _ _ hex
      generalize hip : ((scanSign s).2.span isDigit).1 = ip at *
      generalize hi2 : ((scanSign s).2.span isDigit).2 = i2 at *
      generalize hfd : (scanFraction i2).1 = fd at *
      generalize hf2 : (scanFraction i2).2 = f2 at *
      generalize hb : (scanSign s).2 = body at *
      have hbody : body = (ip ++ (fc ++ ex)) ++ rest' := by
        rw [hsplit, hfc, hexs]; simp
      have hfcase' : (fc = [] ∧ fd = []) ∨ fc = '.' :: fd := by
        rcases hfcase with ⟨h1, h2, _⟩ | ⟨h1, _⟩
        · exact Or.inl ⟨h1, h2⟩
        · exact Or.inr h1
      have hpre : ip ++ (fc ++ ex) ≠ [] := by
        intro h0
        simp only [List.append_eq_nil] at h0
        rcases hfcase' with ⟨_, hfd0⟩ | hfc1
        · exact hne ⟨h0.1, hfd0⟩
        · rw [hfc1] at h0; simp at h0
      have hsgcase : sg = [] ∨ sg = ['+'] ∨ sg = ['-'] := by
        cases s with
        | nil =>
          have : sg ++ body = [] := hsg.symm
          simp only [List.append_eq_nil] at this
          exact Or.inl this.1
        | cons c r =>
          by_cases h1 : c = '-'
          · have hb' : body = r := by rw [← hb]; simp [scanSign, h1]
            rw [hb', h1] at hsg
            have : sg = ['-'] := by
              have h2 : ['-'] ++ r = sg ++ r := hsg
              exact (List.append_cancel_right h2).symm
            exact Or.inr (Or.inr this)
          · by_cases h2 : c = '+'
            · have hb' : body = r := by rw [← hb]; simp [scanSign, h2]
              rw [hb', h2] at hsg
              have : sg = ['+'] := by
                have h3 : ['+'] ++ r = sg ++ r := hsg
                exact (List.append_cancel_right h3).symm
              exact Or.inr (Or.inl this)
            · have hb' : body = c :: r := by rw [← hb]; simp [scanSign, h1, h2]
              rw [hb'] at hsg
              have : sg = [] := by
                have h3 : [] ++ (c :: r) = sg ++ (c :: r) := hsg
                exact (List.append_cancel_right h3).symm
              exact Or.inl this
      have hexcase' : ex = [] ∨ isExponentPart ex = true := by
        rcases hexcase with ⟨h1, _⟩ | ⟨h1, _⟩
        · exact Or.inl h1
        · exact Or.inr h1
      have hf2stop : ∀ c t, f2 = c :: t → isDigit c = false := by
        intro c t hct
        rcases hfcase with ⟨h1, _, _⟩ | ⟨_, h2⟩
        · rw [h1, List.nil_append] at hfc
          exact hstop c t (by rw [hfc]; exact hct)
        · exact h2 c t hct
      refine ⟨sg, ip, fc, fd, ex, ?_, hsgcase, hdrop _ _ hbody hpre, hall, hfall, hfcase',
        hne, hexcase', ?_, ?_, ?_⟩
      · rw [hsg, hbody]; simp
      · intro c t hct
        rcases hexcase with ⟨h1, _⟩ | ⟨_, h2⟩
        · rw [h1, List.nil_append] at hexs
          exact hf2stop c t (by rw [hexs]; exact hct)
        · exact h2 c t hct
      · intro hfc0 hex0 c t hct
        rcases hfcase with ⟨_, _, h3⟩ | ⟨h1, _⟩
        · rw [hex0, List.nil_append] at hexs
          exact h3 c t (by rw [hexs]; exact hct)
        · rw [hfc0] at h1; cases h1
      · intro hex0 c t hct
        rcases hexcase with ⟨_, h2⟩ | ⟨h1, _⟩
        · exact h2 c t hct
        · rw [hex0] at h1; simp [isExponentPart] at h1

theorem isExponentPart_head (ex : List Char) (h : isExponentPart ex = true) (c : Char)
    (r : List Char) (hex : ex = c :: r) : isDigit c = false ∧ c ≠ '.' ∧ (c = 'e' ∨ c = 'E') := by
  subst hex
  simp only [isExponentPart, Bool.and_eq_true, Bool.or_eq_true, decide_eq_true_eq] at h
  rcases h.1.1 with h | h <;> subst h <;> decide

/-- The recogniser on a text given by its parts. -/
theorem isDecimalString_parts (sg ip fc fd ex : List Char)
    (hdrop : dropSign (sg ++ (ip ++ (fc ++ ex))) = ip ++ (fc ++ ex))
    (hall : ∀ c ∈ ip, isDigit c = true) (hfall : ∀ c ∈ fd, isDigit c = true)
    (hfcase : (fc = [] ∧ fd = []) ∨ fc = '.' :: fd) (hne : ¬ (ip = [] ∧ fd = []))
    (hexcase : ex = [] ∨ isExponentPart ex = true) :
    isDecimalString (sg ++ (ip ++ (fc ++ ex))) = true := by
  have hexhead : ∀ c r, ex = c :: r → isDigit c = false ∧ c ≠ '.' := by
    intro c r hcr
    rcases hexcase with h0 | h1
    · rw [h0] at hcr; simp at hcr
    · exact ⟨(isExponentPart_head ex h1 c r hcr).1, (isExponentPart_head ex h1 c r hcr).2.1⟩
  have h1 : ∀ c r, fc ++ ex = c :: r → isDigit c = false := by
    intro c r hcr
    rcases hfcase with ⟨hfc0, _⟩ | hfc1
    · rw [hfc0] at hcr; exact (hexhead c r hcr).1
    · rw [hfc1] at hcr
      simp only [List.cons_append, List.cons.injEq] at hcr
      rw [← hcr.1]; decide
  have htd := takeWhile_dropWhile_append isDigit ip (fc ++ ex) hall h1
  have h2 : (match fc ++ ex with
      | [] => []
      | c :: r => if c = '.' then r else c :: r) = fd ++ ex := by
    rcases hfcase with ⟨hfc0, hfd0⟩ | hfc1
    · rw [hfc0, hfd0]
      cases ex with
      | nil => rfl
      | cons c r => simp [(hexhead c r rfl).2]
    · rw [hfc1]; simp
  have htd2 := takeWhile_dropWhile_append isDigit fd ex hfall
    (fun c r hcr => (hexhead c r hcr).1)
  simp only [isDecimalString, hdrop, htd.1, htd.2, h2, htd2.1, htd2.2]
  simp only [Bool.and_eq_true, Bool.not_eq_true', Bool.and_eq_false_iff, Bool.or_eq_true,
    List.isEmpty_iff]
  refine ⟨?_, hexcase⟩
  by_cases hip0 : ip = []
  · right
    have : fd ≠ [] := fun hfd0 => hne ⟨hip0, hfd0⟩
    cases fd with
    | nil => exact absurd rfl this
    | cons x l => rfl
  · left
    cases ip with
    | nil => exact absurd rfl hip0
    | cons x l => rfl

/-- What `scanNumeral` consumed is a decimal string. -/
theorem scanNumeral_sound (s rest : List Char) (n : Numeral)
    (h : scanNumeral s = some (n, rest)) :
    ∃ pre, s = pre ++ rest ∧ pre ≠ [] ∧ isDecimalString pre = true := by
  obtain ⟨sg, ip, fc, fd, ex, hs, _, hdrop, hall, hfall, hfcase, hne, hexcase, _, _, _⟩ :=
    scanNumeral_shape s rest n h
  refine ⟨sg ++ (ip ++ (fc ++ ex)), hs, ?_, isDecimalString_parts sg ip fc fd ex hdrop hall hfall
    hfcase hne hexcase⟩
  intro h0
  simp only [List.append_eq_nil] at h0
  rcases hfcase with ⟨_, hfd0⟩ | hfc1
  · exact hne ⟨h0.2.1, hfd0⟩
  · rw [hfc1] at h0; simp at h0


/-! ## The numbers formatted input reads, told without the scanner -/

theorem isDigit_not_mark (c : Char) (h : isDigit c = true) :
    c ≠ '.' ∧ c ≠ 'e' ∧ c ≠ 'E' ∧ c ≠ '+' ∧ c ≠ '-' := by
  refine ⟨?_, ?_, ?_, ?_, ?_⟩ <;> (intro h0; rw [h0] at h; exact absurd h (by decide))

theorem not_mark_of_or (c : Char) (h : (decide (c = 'e') || decide (c = 'E')) = false) :
    c ≠ 'e' ∧ c ≠ 'E' := by
  simpa using h

theorem dropSign_shape (p : List Char) :
    ∃ sg, p = sg ++ dropSign p ∧ (sg = [] ∨ sg = ['+'] ∨ sg = ['-']) := by
  cases p with
  | nil => exact ⟨[], rfl, Or.inl rfl⟩
  | cons c r =>
    by_cases h1 : c = '+'
    · exact ⟨['+'], by simp [dropSign, h1], Or.inr (Or.inl rfl)⟩
    · by_cases h2 : c = '-'
      · exact ⟨['-'], by simp [dropSign, h2], Or.inr (Or.inr rfl)⟩
      · exact ⟨[], by simp [dropSign, h1, h2], Or.inl rfl⟩

theorem scanSign_append_ne_nil (p rest : List Char) (hp : p ≠ []) :
    scanSign (p ++ rest) = ((scanSign p).1, dropSign p ++ rest) := by
  cases p with
  | nil => exact absurd rfl hp
  | cons c r =>
    by_cases h1 : c = '-'
    · simp [scanSign, dropSign, h1]
    · by_cases h2 : c = '+'
      · simp [scanSign, dropSign, h2]
      · simp [scanSign, dropSign, h1, h2]

theorem scanSign_snd (p : List Char) : (scanSign p).2 = dropSign p := by
  cases p with
  | nil => rfl
  | cons c r =>
    by_cases h1 : c = '-'
    · simp [scanSign, dropSign, h1]
    · by_cases h2 : c = '+'
      · simp [scanSign, dropSign, h2]
      · simp [scanSign, dropSign, h1, h2]

theorem span_all (p : Char → Bool) (l : List Char) (h : ∀ c ∈ l, p c = true) :
    l.span p = (l, []) := by
  rw [List.span_eq_take_drop, List.takeWhile_eq_self_iff.mpr h, List.dropWhile_eq_nil_iff.mpr h]

theorem span_append_boundary (p : Char → Bool) (a b : List Char) (ha : ∀ c ∈ a, p c = true)
    (hb : ∀ c t, b = c :: t → p c = false) : (a ++ b).span p = (a, b) := by
  have := takeWhile_dropWhile_append p a b ha hb
  rw [List.span_eq_take_drop, this.1, this.2]

/-- The exponent part of a decimal string scans to an exponent, also when
text that does not start with a digit follows. -/
theorem scanExponent_complete (r3 rest : List Char) (h : isExponentPart r3 = true)
    (hrest : ∀ c t, rest = c :: t → isDigit c = false) :
    ∃ e, scanExponent r3 = some (e, []) ∧ scanExponent (r3 ++ rest) = some (e, rest) := by
  cases r3 with
  | nil => simp [isExponentPart] at h
  | cons c r =>
    simp only [isExponentPart, Bool.and_eq_true, Bool.or_eq_true, decide_eq_true_eq,
      Bool.not_eq_true', List.all_eq_true] at h
    obtain ⟨⟨hc, hne⟩, hall⟩ := h
    have hdne : dropSign r ≠ [] := by
      intro h0; rw [h0] at hne; simp at hne
    have hrne : r ≠ [] := by
      intro h0; rw [h0] at hdne; exact hdne rfl
    have h1 : scanSign (r ++ rest) = ((scanSign r).1, dropSign r ++ rest) :=
      scanSign_append_ne_nil r rest hrne
    have h2 : (dropSign r ++ rest).span isDigit = (dropSign r, rest) :=
      span_append_boundary isDigit _ _ hall hrest
    have h3 : (dropSign r).span isDigit = (dropSign r, []) := span_all isDigit _ hall
    refine ⟨if (scanSign r).1 then -(digitsToNat (dropSign r) : Int)
      else (digitsToNat (dropSign r) : Int), ?_, ?_⟩
    · simp only [scanExponent, hc, if_true, scanSign_snd, h3, hdne, if_false]
    · simp only [List.cons_append, scanExponent, hc, if_true, h1, h2, hdne, if_false]

theorem scanExponent_no_mark (rest : List Char)
    (h : ∀ c t, rest = c :: t → c ≠ 'e' ∧ c ≠ 'E') : scanExponent rest = some (0, rest) := by
  cases rest with
  | nil => rfl
  | cons c t =>
    have := h c t rfl
    simp [scanExponent, this.1, this.2]

theorem hasExponentMark_false (l : List Char)
    (h : ∀ c ∈ l, c ≠ 'e' ∧ c ≠ 'E') : hasExponentMark l = false := by
  simp only [hasExponentMark, List.any_eq_false, Bool.or_eq_true, decide_eq_true_eq, not_or]
  exact h

theorem hasPoint_false (l : List Char) (h : ∀ c ∈ l, c ≠ '.') : hasPoint l = false := by
  simp only [hasPoint, List.any_eq_false, decide_eq_true_eq]
  exact h

theorem mem_sign (sg : List Char) (h : sg = [] ∨ sg = ['+'] ∨ sg = ['-']) (c : Char)
    (hc : c ∈ sg) : c ≠ '.' ∧ c ≠ 'e' ∧ c ≠ 'E' := by
  rcases h with h | h | h <;> subst h
  · simp at hc
  · simp only [List.mem_singleton] at hc; subst hc; decide
  · simp only [List.mem_singleton] at hc; subst hc; decide

/-- The scan of a decimal string followed by text at which the number ends:
the numeral depends on the decimal string alone, and the text is left. -/
theorem scanNumeral_complete (pre : List Char) (h : isDecimalString pre = true) :
    ∃ n, ∀ rest, endsNumber pre rest = true → scanNumeral (pre ++ rest) = some (n, rest) := by
  obtain ⟨sg, hsg, hsgcase⟩ := dropSign_shape pre
  have hmemsg := mem_sign sg hsgcase
  generalize hbody : dropSign pre = body at hsg
  simp only [isDecimalString, hbody] at h
  have hip := span_shape isDigit body
  rw [List.span_eq_take_drop] at hip
  obtain ⟨hsplit, hipd, hr1stop⟩ := hip
  simp only at hsplit hipd hr1stop
  generalize hipdef : body.takeWhile isDigit = ip at *
  generalize hr1def : body.dropWhile isDigit = r1 at *
  have hprene : pre ≠ [] := by
    intro h0
    rw [h0] at hbody
    have hb0 : body = [] := by rw [← hbody]; rfl
    rw [hb0] at hipdef hr1def
    simp only [List.takeWhile_nil, List.dropWhile_nil] at hipdef hr1def
    rw [← hipdef, ← hr1def] at h
    simp at h
  have hsign : ∀ rest, scanSign (pre ++ rest) = ((scanSign pre).1, body ++ rest) := by
    intro rest; rw [scanSign_append_ne_nil pre rest hprene, hbody]
  -- the three shapes of what follows the integer digits
  cases hr1 : r1 with
  | nil =>
    -- digits only
    rw [hr1] at h hsplit
    simp only [List.takeWhile_nil, List.dropWhile_nil, List.isEmpty_nil, Bool.and_true,
      Bool.true_or, Bool.not_eq_true', List.isEmpty_eq_false_iff_exists_mem] at h
    have hipne : ip ≠ [] := by
      intro h0; rw [h0] at h; simp at h
    have hpre : pre = sg ++ ip := by rw [hsg, hsplit]; simp
    refine ⟨⟨(scanSign pre).1, digitsToNat (ip ++ []), 0 - (([] : List Char).length : Int)⟩, ?_⟩
    intro rest hends
    have hnomark : hasExponentMark pre = false := by
      apply hasExponentMark_false
      intro c hc
      rw [hpre, List.mem_append] at hc
      rcases hc with hc | hc
      · exact (hmemsg c hc).2
      · exact ⟨(isDigit_not_mark c (hipd c hc)).2.1, (isDigit_not_mark c (hipd c hc)).2.2.1⟩
    have hnopoint : hasPoint pre = false := by
      apply hasPoint_false
      intro c hc
      rw [hpre, List.mem_append] at hc
      rcases hc with hc | hc
      · exact (hmemsg c hc).1
      · exact (isDigit_not_mark c (hipd c hc)).1
    have hb : ∀ c t, rest = c :: t → isDigit c = false ∧ c ≠ '.' ∧ c ≠ 'e' ∧ c ≠ 'E' := by
      intro c t hct
      subst hct
      simp only [endsNumber, hnomark, hnopoint, Bool.or_false, Bool.and_eq_true,
        Bool.not_eq_true', bne_iff_ne, ne_eq, Bool.or_eq_true, decide_eq_true_eq, not_or] at hends
      exact ⟨hends.1.1, hends.1.2, not_mark_of_or c hends.2⟩
    have hspan : (body ++ rest).span isDigit = (ip, rest) := by
      rw [hsplit, List.append_nil]
      exact span_append_boundary isDigit ip rest hipd (fun c t hct => (hb c t hct).1)
    have hfrac : scanFraction rest = ([], rest) := by
      cases rest with
      | nil => rfl
      | cons c t => simp [scanFraction, (hb c t rfl).2.1]
    have hexp := scanExponent_no_mark rest (fun c t hct => (hb c t hct).2.2)
    simp only [scanNumeral, hsign, hspan, hfrac, hexp]
    simp [hipne]
  | cons x r =>
    rw [hr1] at h hsplit hr1stop
    have hxnd : isDigit x = false := hr1stop x r rfl
    by_cases hx : x = '.'
    · -- a point and fraction digits
      subst hx
      simp only [if_true] at h
      have hfp := span_shape isDigit r
      rw [List.span_eq_take_drop] at hfp
      obtain ⟨hrsplit, hfpd, hr3stop⟩ := hfp
      simp only at hrsplit hfpd hr3stop
      generalize hfpdef : r.takeWhile isDigit = fp at *
      generalize hr3def : r.dropWhile isDigit = r3 at *
      simp only [Bool.and_eq_true, Bool.not_eq_true', Bool.or_eq_true] at h
      obtain ⟨hdig, hr3case⟩ := h
      have hne : ¬ (ip = [] ∧ fp = []) := by
        rintro ⟨h1, h2⟩
        rw [h1, h2] at hdig; simp at hdig
      have hpre : pre = sg ++ (ip ++ ('.' :: (fp ++ r3))) := by
        rw [hsg, hsplit, hrsplit]
      cases hr3 : r3 with
      | nil =>
        refine ⟨⟨(scanSign pre).1, digitsToNat (ip ++ fp), 0 - (fp.length : Int)⟩, ?_⟩
        intro rest hends
        rw [hr3] at hpre
        have hnomark : hasExponentMark pre = false := by
          apply hasExponentMark_false
          intro c hc
          rw [hpre] at hc
          simp only [List.mem_append, List.mem_cons, List.append_nil] at hc
          rcases hc with hc | hc | hc | hc
          · exact (hmemsg c hc).2
          · exact ⟨(isDigit_not_mark c (hipd c hc)).2.1, (isDigit_not_mark c (hipd c hc)).2.2.1⟩
          · subst hc; decide
          · exact ⟨(isDigit_not_mark c (hfpd c hc)).2.1, (isDigit_not_mark c (hfpd c hc)).2.2.1⟩
        have hb : ∀ c t, rest = c :: t → isDigit c = false ∧ c ≠ 'e' ∧ c ≠ 'E' := by
          intro c t hct
          subst hct
          simp only [endsNumber, hnomark, Bool.or_false, Bool.and_eq_true,
            Bool.not_eq_true', Bool.or_eq_true, decide_eq_true_eq, not_or] at hends
          exact ⟨hends.1.1, not_mark_of_or c hends.2⟩
        have hspan : (body ++ rest).span isDigit = (ip, '.' :: (r ++ rest)) := by
          rw [hsplit, List.append_assoc]
          exact span_append_boundary isDigit ip _ hipd (fun c t hct => by
            simp only [List.cons_append, List.cons.injEq] at hct
            rw [← hct.1]; decide)
        have hrfp : r = fp := by rw [hrsplit, hr3]; simp
        have hfrac : scanFraction ('.' :: (r ++ rest)) = (fp, rest) := by
          simp only [scanFraction, if_true]
          rw [hrfp]
          exact span_append_boundary isDigit fp rest hfpd (fun c t hct => (hb c t hct).1)
        have hexp := scanExponent_no_mark rest (fun c t hct => (hb c t hct).2)
        simp only [scanNumeral, hsign, hspan, hfrac, hexp]
        simp [hne]
      | cons y r3' =>
        rw [hr3] at hr3case hrsplit hr3stop
        have hexpart : isExponentPart (y :: r3') = true := by
          rcases hr3case with h0 | h0
          · simp at h0
          · exact h0
        obtain ⟨e, _, _⟩ := scanExponent_complete (y :: r3') [] hexpart (fun c t hct => by cases hct)
        refine ⟨⟨(scanSign pre).1, digitsToNat (ip ++ fp), e - (fp.length : Int)⟩, ?_⟩
        intro rest hends
        have hb : ∀ c t, rest = c :: t → isDigit c = false := by
          intro c t hct
          subst hct
          simp only [endsNumber, Bool.and_eq_true, Bool.not_eq_true'] at hends
          exact hends.1.1
        obtain ⟨e', he1, he2⟩ := scanExponent_complete (y :: r3') rest hexpart hb
        have hee : e' = e := by
          rename_i he0 _
          rw [he0] at he1
          simp only [Option.some.injEq, Prod.mk.injEq, and_true] at he1
          exact he1.symm
        subst hee
        have hspan : (body ++ rest).span isDigit = (ip, '.' :: (r ++ rest)) := by
          rw [hsplit, List.append_assoc]
          exact span_append_boundary isDigit ip _ hipd (fun c t hct => by
            simp only [List.cons_append, List.cons.injEq] at hct
            rw [← hct.1]; decide)
        have hfrac : scanFraction ('.' :: (r ++ rest)) = (fp, (y :: r3') ++ rest) := by
          simp only [scanFraction, if_true]
          rw [hrsplit, List.append_assoc]
          exact span_append_boundary isDigit fp _ hfpd (fun c t hct => by
            simp only [List.cons_append, List.cons.injEq] at hct
            rw [← hct.1]; exact hr3stop y r3' rfl)
        simp only [scanNumeral, hsign, hspan, hfrac, he2]
        simp [hne]
    · -- an exponent part right after the integer digits
      simp only [hx, if_false] at h
      have htw : (x :: r).takeWhile isDigit = [] := by simp [List.takeWhile_cons, hxnd]
      have hdw : (x :: r).dropWhile isDigit = x :: r := by simp [List.dropWhile_cons, hxnd]
      rw [htw, hdw] at h
      simp only [List.isEmpty_nil, Bool.and_true, Bool.and_eq_true, Bool.not_eq_true',
        Bool.or_eq_true] at h
      obtain ⟨hdig, hr3case⟩ := h
      have hipne : ip ≠ [] := by
        intro h0; rw [h0] at hdig; simp at hdig
      have hexpart : isExponentPart (x :: r) = true := by
        rcases hr3case with h0 | h0
        · simp at h0
        · exact h0
      obtain ⟨e, he0, _⟩ := scanExponent_complete (x :: r) [] hexpart (fun c t hct => by cases hct)
      refine ⟨⟨(scanSign pre).1, digitsToNat (ip ++ []), e - (([] : List Char).length : Int)⟩, ?_⟩
      intro rest hends
      have hb : ∀ c t, rest = c :: t → isDigit c = false := by
        intro c t hct
        subst hct
        simp only [endsNumber, Bool.and_eq_true, Bool.not_eq_true'] at hends
        exact hends.1.1
      obtain ⟨e', he1, he2⟩ := scanExponent_complete (x :: r) rest hexpart hb
      have hee : e' = e := by
        rw [he0] at he1
        simp only [Option.some.injEq, Prod.mk.injEq, and_true] at he1
        exact he1.symm
      subst hee
      have hspan : (body ++ rest).span isDigit = (ip, (x :: r) ++ rest) := by
        rw [hsplit, List.append_assoc]
        exact span_append_boundary isDigit ip _ hipd (fun c t hct => by
          simp only [List.cons_append, List.cons.injEq] at hct
          rw [← hct.1]; exact hxnd)
      have hfrac : scanFraction ((x :: r) ++ rest) = ([], (x :: r) ++ rest) := by
        simp [scanFraction, hx]
      simp only [scanNumeral, hsign, hspan, hfrac, he2]
      simp [hipne]


/-- What `scanNumeral` consumed is a decimal string at which the number ends. -/
theorem scanNumeral_ends (s rest : List Char) (n : Numeral)
    (h : scanNumeral s = some (n, rest)) :
    ∃ pre, s = pre ++ rest ∧ isDecimalString pre = true ∧ endsNumber pre rest = true := by
  obtain ⟨sg, ip, fc, fd, ex, hs, _, hdrop, hall, hfall, hfcase, hne, hexcase, hb1, hb2, hb3⟩ :=
    scanNumeral_shape s rest n h
  refine ⟨sg ++ (ip ++ (fc ++ ex)), hs,
    isDecimalString_parts sg ip fc fd ex hdrop hall hfall hfcase hne hexcase, ?_⟩
  cases rest with
  | nil => rfl
  | cons c t =>
    have hmark : ex ≠ [] → hasExponentMark (sg ++ (ip ++ (fc ++ ex))) = true := by
      intro hex
      rcases hexcase with h0 | h0
      · exact absurd h0 hex
      · cases ex with
        | nil => exact absurd rfl hex
        | cons y r =>
          have hy := (isExponentPart_head _ h0 y r rfl).2.2
          simp only [hasExponentMark, List.any_append, List.any_cons, Bool.or_eq_true,
            decide_eq_true_eq]
          exact Or.inr (Or.inr (Or.inr (Or.inl hy)))
    have hpoint : fc ≠ [] → hasPoint (sg ++ (ip ++ (fc ++ ex))) = true := by
      intro hfc
      rcases hfcase with ⟨h0, _⟩ | h0
      · exact absurd h0 hfc
      · rw [h0]
        simp [hasPoint, List.any_append]
    simp only [endsNumber, Bool.and_eq_true, Bool.not_eq_true', Bool.or_eq_true, bne_iff_ne,
      ne_eq, decide_eq_true_eq]
    refine ⟨⟨hb1 c t rfl, ?_⟩, ?_⟩
    · by_cases hc : c = '.'
      · by_cases hfc : fc = []
        · by_cases hex : ex = []
          · exact absurd hc (hb2 hfc hex c t rfl)
          · exact Or.inr (hmark hex)
        · exact Or.inl (Or.inr (hpoint hfc))
      · exact Or.inl (Or.inl hc)
    · by_cases hex : ex = []
      · left
        have := hb3 hex c t rfl
        simp [this.1, this.2]
      · exact Or.inr (hmark hex)

/-- Formatted input reads a number from a text exactly when some initial
part of the text is a decimal string at which the number ends. -/
theorem scanNumeral_none_of_reads_nowhere (s : List Char)
    (h : ∀ k, readsAt s k = false) : scanNumeral s = none := by
  cases hs : scanNumeral s with
  | none => rfl
  | some p =>
    obtain ⟨n, rest⟩ := p
    obtain ⟨pre, hpre, hdec, hends⟩ := scanNumeral_ends s rest n hs
    have hk := h pre.length
    rw [readsAt, hpre, List.take_left, List.drop_left, hdec, hends] at hk
    cases hk

theorem scanNumeral_of_readsAt (s : List Char) (k : Nat) (h : readsAt s k = true) :
    ∃ n, scanNumeral s = some (n, s.drop k) ∧ scanNumeral (s.take k) = some (n, []) := by
  simp only [readsAt, Bool.and_eq_true] at h
  obtain ⟨n, hn⟩ := scanNumeral_complete (s.take k) h.1
  refine ⟨n, ?_, ?_⟩
  · have := hn (s.drop k) h.2
    rwa [List.take_append_drop] at this
  · have := hn [] rfl
    rwa [List.append_nil] at this

theorem scanNumeral_some_no_space (s : List Char) (p : Numeral × List Char)
    (h : scanNumeral s = some p) : s.dropWhile isSpace = s := by
  cases s with
  | nil => rfl
  | cons c t =>
    by_cases hc : isSpace c = true
    · have := scanNumeral_append [] c t (stops_of_isSpace c hc)
      have hnil : scanNumeral [] = none := by decide
      rw [hnil] at this
      simp only [List.nil_append, Option.map] at this
      rw [this] at h; cases h
    · simp [List.dropWhile_cons, hc]

/-- What `extractDouble` stores depends on the numeral alone. -/
theorem extractDouble_of_readsAt (s : List Char) (k : Nat)
    (h : readsAt (s.dropWhile isSpace) k = true) :
    (extractDouble s).map Prod.fst
      = (extractDouble ((s.dropWhile isSpace).take k)).map Prod.fst := by
  obtain ⟨n, h1, h2⟩ := scanNumeral_of_readsAt _ k h
  have h3 := scanNumeral_some_no_space _ _ h2
  unfold extractDouble
  rw [h1, h3, h2]
  simp only []
  cases hst : storeDouble n <;> simp

theorem tokensFrom_word (w : List Char) (hw : ∀ c ∈ w, isSpace c = false)
    (cur rest : List Char) :
    tokensFrom cur (w ++ rest) = tokensFrom (w.reverse ++ cur) rest := by
  induction w generalizing cur with
  | nil => simp
  | cons x w ih =>
    have hx : isSpace x = false := hw x (List.mem_cons_self _ _)
    have h1 : tokensFrom cur (x :: w ++ rest) = tokensFrom (x :: cur) (w ++ rest) := by
      simp only [List.cons_append]
      rw [tokensFrom]
      simp [hx]
    rw [h1, ih (fun c hc => hw c (List.mem_cons_of_mem _ hc))]
    simp

theorem tokens_dropWhile (s : List Char) : tokens (s.dropWhile isSpace) = tokens s := by
  induction s with
  | nil => rfl
  | cons c r ih =>
    by_cases hc : isSpace c = true
    · simp only [List.dropWhile_cons, hc, if_true]
      rw [ih]
      simp [tokens, tokensFrom, hc]
    · simp [List.dropWhile_cons, hc]

/-- A token in front of a text that is empty or starts with whitespace. -/
theorem tokens_word_append (w rest : List Char) (hne : w ≠ [])
    (hw : ∀ c ∈ w, isSpace c = false) (hrest : ∀ c r, rest = c :: r → isSpace c = true) :
    tokens (w ++ rest) = w :: tokens rest := by
  unfold tokens
  rw [tokensFrom_word w hw]
  have hrev : w.reverse ++ [] ≠ [] := by simpa using hne
  cases rest with
  | nil => simp [tokensFrom, hne]
  | cons c r =>
    have hc := hrest c r rfl
    simp [tokensFrom, hc, hne]

theorem extractWord_none (s : List Char) (h : extractWord s = none) :
    s.dropWhile isSpace = [] ∧ tokens s = [] := by
  unfold extractWord at h
  cases hd : s.dropWhile isSpace with
  | nil =>
    refine ⟨rfl, ?_⟩
    rw [← tokens_dropWhile, hd]; rfl
  | cons c r => rw [hd] at h; cases h

theorem extractWord_some (s w rest : List Char) (h : extractWord s = some (w, rest)) :
    s.dropWhile isSpace = w ++ rest ∧ w ≠ [] ∧ (∀ c ∈ w, isSpace c = false)
      ∧ (∀ c r, rest = c :: r → isSpace c = true) ∧ tokens s = w :: tokens rest
      ∧ rest.length < s.length := by
  unfold extractWord at h
  cases hd : s.dropWhile isSpace with
  | nil => rw [hd] at h; cases h
  | cons c r =>
    rw [hd] at h
    simp only [Option.some.injEq] at h
    obtain ⟨hsplit, hall, hstop⟩ := span_shape (fun x => !isSpace x) (c :: r)
    rw [h] at hsplit hall hstop
    simp only at hsplit hall hstop
    have hc : isSpace c = false := by
      have := List.head_dropWhile_not isSpace s (by rw [hd]; simp)
      simpa [hd] using this
    have hwne : w ≠ [] := by
      intro h0
      subst h0
      simp only [List.nil_append] at hsplit
      have := hstop c r hsplit.symm
      simp [hc] at this
    have hw : ∀ c ∈ w, isSpace c = false := fun x hx => by simpa using hall x hx
    have hr : ∀ c r, rest = c :: r → isSpace c = true := fun x r hx => by
      simpa using hstop x r hx
    refine ⟨hsplit, hwne, hw, hr, ?_, ?_⟩
    · rw [← tokens_dropWhile, hd, hsplit]
      exact tokens_word_append w rest hwne hw hr
    · have hlen : (s.dropWhile isSpace).length ≤ s.length :=
        (List.dropWhile_sublist _).length_le
      rw [hd, hsplit] at hlen
      have : 0 < w.length := List.length_pos.mpr hwne
      simp at hlen
      omega


/-! ## Lemmas on the loading loop -/

theorem scanNumeral_nil : scanNumeral [] = none := by decide

theorem scanNumeral_append_rest (a s2 : List Char)
    (hs2 : ∀ c r, s2 = c :: r → isSpace c = true) :
    scanNumeral (a ++ s2) = (scanNumeral a).map (fun p => (p.1, p.2 ++ s2)) := by
  cases s2 with
  | nil =>
    simp only [List.append_nil]
    cases scanNumeral a with
    | none => rfl
    | some p => simp
  | cons c r => exact scanNumeral_append a c r (stops_of_isSpace c (hs2 c r rfl))

theorem dropWhile_eq_self_of_head (a : List Char) (hne : a ≠ [])
    (haw : ∀ c ∈ a, isSpace c = false) : a.dropWhile isSpace = a := by
  cases a with
  | nil => exact absurd rfl hne
  | cons c r => simp [List.dropWhile_cons, haw c (List.mem_cons_self _ _)]

/-- Reading an amount from a stream whose next token is `a` is reading it from
`a` alone; what follows the token stays in the stream. -/
theorem extractDouble_token (s1 a s2 : List Char) (hdrop : s1.dropWhile isSpace = a ++ s2)
    (hane : a ≠ []) (haw : ∀ c ∈ a, isSpace c = false)
    (hs2 : ∀ c r, s2 = c :: r → isSpace c = true) :
    extractDouble s1 = (extractDouble a).map (fun p => (p.1, p.2 ++ s2)) := by
  unfold extractDouble
  rw [hdrop, dropWhile_eq_self_of_head a hane haw, scanNumeral_append_rest a s2 hs2]
  cases scanNumeral a with
  | none => rfl
  | some p =>
    obtain ⟨n, rem⟩ := p
    simp only [Option.map]
    cases storeDouble n <;> rfl

theorem extractDouble_rest_suffix (a : List Char) (v : Double) (rem : List Char)
    (h : extractDouble a = some (v, rem)) : ∃ pre, a.dropWhile isSpace = pre ++ rem ∧ pre ≠ [] := by
  unfold extractDouble at h
  cases hn : scanNumeral (a.dropWhile isSpace) with
  | none => rw [hn] at h; cases h
  | some p =>
    obtain ⟨n, rem'⟩ := p
    rw [hn] at h
    simp only at h
    cases hst : storeDouble n with
    | none => rw [hst] at h; cases h
    | some w =>
      rw [hst] at h
      simp only [Option.some.injEq, Prod.mk.injEq] at h
      obtain ⟨pre, hpre, hne, _⟩ := scanNumeral_sound _ rem' n hn
      rw [← h.2]
      exact ⟨pre, hpre, hne⟩

/-- The extraction loop and the reading by tokens agree. -/
theorem loadLoop_eq_splitPairs (f : Nat) :
    ∀ (g : Nat) (s : List Char), s.length < f → s.length < g →
      loadLoop f s = splitPairs g (tokens s) := by
  induction f with
  | zero => intro g s hf; omega
  | succ f ih =>
    intro g s hf hg
    cases g with
    | zero => omega
    | succ g =>
      cases hw : extractWord s with
      | none =>
        rw [(extractWord_none s hw).2]
        simp [loadLoop, hw, splitPairs]
      | some p =>
        obtain ⟨c, s1⟩ := p
        obtain ⟨_, _, _, _, htok, hlen⟩ := extractWord_some s c s1 hw
        rw [htok]
        cases hw1 : extractWord s1 with
        | none =>
          obtain ⟨hdrop, htok1⟩ := extractWord_none s1 hw1
          rw [htok1]
          simp [loadLoop, hw, extractDouble, hdrop, scanNumeral_nil, splitPairs]
        | some p1 =>
          obtain ⟨a, s2⟩ := p1
          obtain ⟨hdrop, hane, haw, hs2, htok1, hlen1⟩ := extractWord_some s1 a s2 hw1
          rw [htok1]
          have hex := extractDouble_token s1 a s2 hdrop hane haw hs2
          cases hn : extractDouble a with
          | none =>
            rw [hn] at hex
            simp [loadLoop, hw, hex, splitPairs, hn]
          | some q =>
            obtain ⟨v, rem⟩ := q
            rw [hn] at hex
            simp only [Option.map] at hex
            cases rem with
            | nil =>
              have h1 : loadLoop (f + 1) s = ⟨c, v⟩ :: loadLoop f s2 := by
                simp [loadLoop, hw, hex]
              have h2 : splitPairs (g + 1) (c :: a :: tokens s2)
                  = ⟨c, v⟩ :: splitPairs g (tokens s2) := by
                simp [splitPairs, hn]
              rw [h1, h2, ih g s2 (by omega) (by omega)]
            | cons x rem =>
              obtain ⟨pre, hpre, _⟩ := extractDouble_rest_suffix a v (x :: rem) hn
              rw [dropWhile_eq_self_of_head a hane haw] at hpre
              have hremw : ∀ c ∈ x :: rem, isSpace c = false := fun y hy =>
                haw y (by rw [hpre]; exact List.mem_append_right _ hy)
              have htok2 : tokens ((x :: rem) ++ s2) = (x :: rem) :: tokens s2 :=
                tokens_word_append (x :: rem) s2 (by simp) hremw hs2
              have hlen2 : ((x :: rem) ++ s2).length ≤ s1.length := by
                have h3 : (s1.dropWhile isSpace).length ≤ s1.length :=
                  (List.dropWhile_sublist _).length_le
                rw [hdrop, hpre] at h3
                simp only [List.length_append, List.length_cons] at h3 ⊢
                omega
              have h1 : loadLoop (f + 1) s
                  = ⟨c, v⟩ :: loadLoop f ((x :: rem) ++ s2) := by
                simp [loadLoop, hw, hex]
              have h2 : splitPairs (g + 1) (c :: a :: tokens s2)
                  = ⟨c, v⟩ :: splitPairs g ((x :: rem) :: tokens s2) := by
                simp [splitPairs, hn]
              rw [h1, h2, ih g _ (by omega) (by omega), htok2]

/-- The pairs of the reading by whole tokens are read by the extraction loop,
first and in the same order. -/
theorem tokenPairs_prefix_loadLoop (f : Nat) :
    ∀ (s : List Char), s.length < f → tokenPairs (tokens s) <+: loadLoop f s := by
  induction f with
  | zero => intro s hf; omega
  | succ f ih =>
    intro s hf
    cases hw : extractWord s with
    | none =>
      rw [(extractWord_none s hw).2]
      simp [tokenPairs]
    | some p =>
      obtain ⟨c, s1⟩ := p
      obtain ⟨_, _, _, _, htok, hlen⟩ := extractWord_some s c s1 hw
      rw [htok]
      cases hw1 : extractWord s1 with
      | none =>
        rw [(extractWord_none s1 hw1).2]
        simp [tokenPairs]
      | some p1 =>
        obtain ⟨a, s2⟩ := p1
        obtain ⟨hdrop, hane, haw, hs2, htok1, hlen1⟩ := extractWord_some s1 a s2 hw1
        rw [htok1]
        have hex := extractDouble_token s1 a s2 hdrop hane haw hs2
        cases hn : extractDouble a with
        | none => simp [tokenPairs, hn]
        | some q =>
          obtain ⟨v, rem⟩ := q
          rw [hn] at hex
          simp only [Option.map] at hex
          cases rem with
          | nil =>
            have h1 : loadLoop (f + 1) s = ⟨c, v⟩ :: loadLoop f s2 := by
              simp [loadLoop, hw, hex]
            have h2 : tokenPairs (c :: a :: tokens s2)
                = ⟨c, v⟩ :: tokenPairs (tokens s2) := by
              simp [tokenPairs, hn]
            rw [h1, h2, List.prefix_cons_inj]
            exact ih s2 (by omega)
          | cons x rem => simp [tokenPairs, hn]

theorem natDigitsAux_acc (f : Nat) : ∀ (n : Nat) (acc : List Char),
    natDigitsAux f n acc = natDigitsAux f n [] ++ acc := by
  induction f with
  | zero => intro n acc; simp [natDigitsAux]
  | succ f ih =>
    intro n acc
    by_cases h : n < 10
    · simp [natDigitsAux, h]
    · simp only [natDigitsAux, h, if_false]
      rw [ih (n / 10) (Char.ofNat (48 + n % 10) :: acc), ih (n / 10) [Char.ofNat (48 + n % 10)]]
      simp

theorem natDigitsAux_fuel (f : Nat) : ∀ (g n : Nat) (acc : List Char), n < f → n < g →
    natDigitsAux f n acc = natDigitsAux g n acc := by
  induction f with
  | zero => intro g n acc hf; omega
  | succ f ih =>
    intro g n acc hf hg
    cases g with
    | zero => omega
    | succ g =>
      by_cases h : n < 10
      · simp [natDigitsAux, h]
      · simp only [natDigitsAux, h, if_false]
        exact ih g (n / 10) _ (by omega) (by omega)

theorem natDigits_ge_ten (n : Nat) (h : 10 ≤ n) :
    natDigits n = natDigits (n / 10) ++ [Char.ofNat (48 + n % 10)] := by
  have h' : ¬ n < 10 := by omega
  have h1 : natDigitsAux (n + 1) n []
      = natDigitsAux n (n / 10) [Char.ofNat (48 + n % 10)] := by
    rw [natDigitsAux]; simp [h']
  unfold natDigits
  rw [h1, natDigitsAux_acc, natDigitsAux_fuel n (n / 10 + 1) (n / 10) [] (by omega) (by omega)]

theorem natDigits_mul_pow (n : Nat) (hn : 0 < n) (j : Nat) :
    natDigits (n * 10 ^ j) = natDigits n ++ List.replicate j '0' := by
  induction j with
  | zero => simp
  | succ j ih =>
    have h10 : 10 ≤ n * 10 ^ (j + 1) := by
      have : 0 < 10 ^ j := pow_pos (by norm_num) j
      calc 10 = 1 * 1 * 10 := by norm_num
        _ ≤ n * 10 ^ j * 10 := by
          apply Nat.mul_le_mul_right
          exact Nat.mul_le_mul hn this
        _ = n * 10 ^ (j + 1) := by ring
    rw [natDigits_ge_ten _ h10]
    have hdiv : n * 10 ^ (j + 1) / 10 = n * 10 ^ j := by
      rw [pow_succ, ← Nat.mul_assoc]; exact Nat.mul_div_cancel _ (by norm_num)
    have hmod : n * 10 ^ (j + 1) % 10 = 0 := by
      rw [pow_succ, ← Nat.mul_assoc]; exact Nat.mul_mod_left _ _
    rw [hdiv, hmod, ih, List.replicate_succ']
    simp


theorem roundHalfEven_exact (m d : Nat) (hd : 0 < d) : roundHalfEven (m * d) d = m := by
  simp only [roundHalfEven]
  rw [Nat.mul_mod_left, Nat.mul_div_cancel _ hd]
  simp [hd]

theorem ratio_bounds (v : ℚ) (M : Nat) (x : Int) (hM1 : 100000 ≤ M) (hM2 : M < 1000000)
    (hv : v = M * (10 : ℚ) ^ (x - 5)) :
    (10 : ℚ) ^ x ≤ v ∧ v < (10 : ℚ) ^ (x + 1) := by
  have hpos : (0 : ℚ) < (10 : ℚ) ^ (x - 5) := zpow_pos (by norm_num) _
  have h1 : (10 : ℚ) ^ x = 100000 * (10 : ℚ) ^ (x - 5) := by
    have : (100000 : ℚ) = (10 : ℚ) ^ (5 : ℤ) := by norm_num
    rw [this, ← zpow_add₀ (by norm_num : (10 : ℚ) ≠ 0)]
    congr 1; ring
  have h2 : (10 : ℚ) ^ (x + 1) = 1000000 * (10 : ℚ) ^ (x - 5) := by
    have : (1000000 : ℚ) = (10 : ℚ) ^ (6 : ℤ) := by norm_num
    rw [this, ← zpow_add₀ (by norm_num : (10 : ℚ) ≠ 0)]
    congr 1; ring
  have hM1q : (100000 : ℚ) ≤ (M : ℚ) := by exact_mod_cast hM1
  have hM2q : (M : ℚ) < (1000000 : ℚ) := by exact_mod_cast hM2
  rw [h1, h2, hv]
  exact ⟨mul_le_mul_of_nonneg_right hM1q hpos.le, mul_lt_mul_of_pos_right hM2q hpos⟩

theorem roundHalfEven_zero_left (d : Nat) : roundHalfEven 0 d = 0 := by
  unfold roundHalfEven
  simp

theorem roundMagnitude_nonneg (q : ℚ) : 0 ≤ roundMagnitude q := by
  unfold roundMagnitude
  split
  · exact le_refl _
  · positivity

/-- What formatted input stores is a finite double in the normal form. -/
theorem extractDouble_isFinite (s rest : List Char) (a : Double)
    (h : extractDouble s = some (a, rest)) : a.isFinite := by
  unfold extractDouble at h
  cases hn : scanNumeral (s.dropWhile isSpace) with
  | none => rw [hn] at h; cases h
  | some p =>
    obtain ⟨n, r⟩ := p
    rw [hn] at h
    simp only [] at h
    unfold storeDouble roundToDouble at h
    by_cases hmax : maxDouble < roundMagnitude n.magnitude
    · rw [if_pos hmax] at h; cases h
    · rw [if_neg hmax] at h
      simp only [Option.some.injEq, Prod.mk.injEq] at h
      rw [← h.1]
      exact roundMagnitude_nonneg _

/-- On a finite double in the normal form the test `x < 0` is the comparison
of its value with zero. -/
theorem ltZero_iff (a : Double) (h : a.isFinite) : a.ltZero = true ↔ a.toRat < 0 := by
  cases a with
  | finite neg mag =>
    have hm : 0 ≤ mag := h
    cases neg
    · simp [Double.ltZero, Double.toRat, hm]
    · simp [Double.ltZero, Double.toRat]
  | inf neg => exact False.elim h
  | nan => exact False.elim h

theorem addExpense_invalid_iff (t : ExpenseTracker) (c a : List Char) :
    t.addExpense c a = ⟨t, [], some .invalid_argument⟩ ↔ extractDouble a = none := by
  unfold addExpense
  cases hx : extractDouble a with
  | none => simp
  | some p =>
    obtain ⟨v, r⟩ := p
    simp only []
    by_cases hneg : v.ltZero = true
    · simp [hneg]
    · simp [hneg]

theorem addExpense_thrown_invalid_iff (t : ExpenseTracker) (c a : List Char) :
    (t.addExpense c a).thrown = some .invalid_argument ↔ extractDouble a = none := by
  unfold addExpense
  cases hx : extractDouble a with
  | none => simp
  | some p =>
    obtain ⟨v, r⟩ := p
    simp only []
    by_cases hneg : v.ltZero = true
    · simp [hneg]
    · simp [hneg]

/-- The result of `addExpense` depends on the amount text only through the
double that is read from it. -/
theorem addExpense_congr (t : ExpenseTracker) (c a b : List Char)
    (h : (extractDouble a).map Prod.fst = (extractDouble b).map Prod.fst) :
    t.addExpense c a = t.addExpense c b := by
  unfold addExpense
  cases ha : extractDouble a with
  | none =>
    cases hb : extractDouble b with
    | none => rfl
    | some q => rw [ha, hb] at h; cases h
  | some p =>
    cases hb : extractDouble b with
    | none => rw [ha, hb] at h; cases h
    | some q =>
      obtain ⟨v, r⟩ := p
      obtain ⟨w, r2⟩ := q
      rw [ha, hb] at h
      simp only [Option.map_some', Option.some.injEq] at h
      subst h
      rfl

/-- A numeric string alone is read to its end; it is refused exactly when the
number it writes rounds beyond the largest finite double. -/
theorem extractDouble_decimalString (p : List Char) (h : isDecimalString p = true) :
    extractDouble p = none
      ↔ ∃ n, scanNumeral p = some (n, []) ∧ maxDouble < roundMagnitude n.magnitude := by
  obtain ⟨n, hn⟩ := scanNumeral_complete p h
  have h0 : scanNumeral p = some (n, []) := by
    have := hn [] rfl
    rwa [List.append_nil] at this
  have hd := scanNumeral_some_no_space p _ h0
  unfold extractDouble
  rw [hd, h0]
  simp only []
  unfold storeDouble roundToDouble
  by_cases hmax : maxDouble < roundMagnitude n.magnitude
  · rw [if_pos hmax]
    simp only [true_iff]
    exact ⟨n, rfl, hmax⟩
  · rw [if_neg hmax]
    simp only [false_iff, reduceCtorEq]
    rintro ⟨m, hm, hlt⟩
    simp only [Option.some.injEq, Prod.mk.injEq, and_true] at hm
    subst hm
    exact hmax hlt

theorem toRat_ofRat (q : ℚ) : (Double.ofRat q).toRat = q := by
  unfold Double.ofRat
  by_cases hlt : q < 0
  · simp [Double.toRat, hlt, abs_of_neg hlt]
  · simp [Double.toRat, hlt, abs_of_nonneg (not_lt.mp hlt)]

theorem add_exact (a b : Double) (ha : a = Double.ofRat a.toRat) (hb : b.isFinite)
    (hrep : representable (a.toRat + b.toRat)) :
    a.add b = Double.ofRat (a.toRat + b.toRat) := by
  cases b with
  | inf _ => exact False.elim hb
  | nan => exact False.elim hb
  | finite n2 m2 =>
    have hm2 : 0 ≤ m2 := hb
    cases a with
    | inf _ => simp [Double.ofRat, Double.toRat] at ha
    | nan => simp [Double.ofRat, Double.toRat] at ha
    | finite n1 m1 =>
      simp only [Double.add]
      by_cases hs : (Double.finite n1 m1).toRat + (Double.finite n2 m2).toRat = 0
      · rw [if_pos hs, hs]
        simp only [Double.ofRat, lt_self_iff_false, decide_False, abs_zero, Double.finite.injEq,
          and_true, Bool.and_eq_false_imp]
        intro h1
        have hneg : n1 = decide ((Double.finite n1 m1).toRat < 0) := by
          have := ha
          simp only [Double.ofRat, Double.finite.injEq] at this
          exact this.1
        rw [h1] at hneg hs
        have hlt : (Double.finite true m1).toRat < 0 := by simpa using hneg.symm
        cases n2
        · rfl
        · simp only [Double.toRat, if_true] at hs hlt
          linarith
      · rw [if_neg hs]
        unfold roundToDouble
        rw [hrep.1, if_neg (not_lt.mpr hrep.2)]
        rfl

/-- When every partial sum is a double, the accumulation in `calculateTotal`
is exact. -/
theorem foldl_add_exact (es : List Expense) (acc : Double)
    (hacc : acc = Double.ofRat acc.toRat)
    (hfin : ∀ e ∈ es, e.amount.isFinite)
    (hrep : ∀ k, representable (acc.toRat + exactSum (es.take k))) :
    es.foldl (fun total expense => total.add expense.amount) acc
      = Double.ofRat (acc.toRat + exactSum es) := by
  induction es generalizing acc with
  | nil => simpa [exactSum] using hacc
  | cons e es ih =>
    have h1 : acc.add e.amount = Double.ofRat (acc.toRat + e.amount.toRat) := by
      apply add_exact acc e.amount hacc (hfin e (List.mem_cons_self _ _))
      have := hrep 1
      simpa [exactSum] using this
    have hval : (acc.add e.amount).toRat = acc.toRat + e.amount.toRat := by
      rw [h1, toRat_ofRat]
    rw [List.foldl_cons]
    rw [ih (acc.add e.amount) (by rw [hval]; exact h1)
      (fun x hx => hfin x (List.mem_cons_of_mem _ hx))
      (by
        intro k
        have := hrep (k + 1)
        rw [hval]
        simpa [exactSum, add_assoc] using this)]
    rw [hval]
    simp [exactSum, add_assoc]

theorem searchLoop_eq (c : List Char) (l : List Expense) (found : Bool) :
    searchLoop c l found
      = ((l.filter (fun e => decide (e.category = c))).map Out.entry,
          found || !(l.filter (fun e => decide (e.category = c))).isEmpty) := by
  induction l generalizing found with
  | nil => simp [searchLoop]
  | cons e es ih =>
    by_cases h : e.category = c
    · simp [searchLoop, h, ih]
    · simp [searchLoop, h, ih]

theorem searchExpense_eq (t : ExpenseTracker) (c : List Char) :
    t.searchExpense c
      = ⟨t, (t.expenses.filter (fun e => decide (e.category = c))).map .entry
            ++ (if t.expenses.filter (fun e => decide (e.category = c)) = []
                then [.notFound c] else []), none⟩ := by
  simp only [searchExpense, searchLoop_eq]
  by_cases hf : t.expenses.filter (fun e => decide (e.category = c)) = []
  · simp [hf]
  · simp [hf]

/-- Amounts at the edges of the range of the doubles: `-1e400` is beyond it,
the extraction fails and `addExpense` throws `invalid_argument`; `-1e-400` is
read as the zero with the minus sign, which is not below zero, and is
appended; it is printed as `-0`. -/
theorem addExpense_edges_of_range (t : ExpenseTracker) (c : List Char) :
    t.addExpense c "-1e400".toList = ⟨t, [], some .invalid_argument⟩
      ∧ t.addExpense c "1e400".toList = ⟨t, [], some .invalid_argument⟩
      ∧ t.addExpense c "-1e-400".toList
        = ⟨⟨t.expenses ++ [⟨c, .finite true 0⟩]⟩, [.added ⟨c, .finite true 0⟩], none⟩
      ∧ insertDouble (.finite true 0) = "-0".toList := by
  refine ⟨(addExpense_invalid_iff t c _).mpr (by decide!),
    (addExpense_invalid_iff t c _).mpr (by decide!), ?_, by decide!⟩
  have hx : extractDouble "-1e-400".toList = some (Double.finite true 0, []) := by decide!
  unfold addExpense
  rw [hx]
  rfl


/-- Claim C1, counterexample: the text `12abc` is not a decimal string, yet
`addExpense` accepts it and appends the amount 12. -/
theorem addExpense_accepts_trailing_text :
    isDecimalString "12abc".toList = false
      ∧ (ExpenseTracker.mk []).addExpense "food".toList "12abc".toList
          = ⟨⟨[⟨"food".toList, .finite false 12⟩]⟩,
              [.added ⟨"food".toList, .finite false 12⟩], none⟩ := by
  decide!

/-- Claim C1, amended: `addExpense` throws `invalid_argument`, printing nothing
and leaving the tracker as it was, exactly when the amount text, its leading
whitespace skipped, either begins with no number that ends (no initial part of
it is a numeric string after which the number cannot go on), or begins with
one that, read alone, is refused: its value rounds beyond the largest finite
double. A throw of `invalid_argument` always leaves the tracker as it was.
When the text begins with a number that ends, the call does what it does on
that number alone: what follows the number is ignored. So `abc`, the empty
text and `12e` are refused, `1e400` is refused for its size, and `12abc` is
accepted as 12. -/
theorem addExpense_invalid_iff_reads_no_double (t : ExpenseTracker)
    (category inputAmount : List Char) :
    (t.addExpense category inputAmount = ⟨t, [], some .invalid_argument⟩
        ↔ (∀ k, readsAt (inputAmount.dropWhile isSpace) k = false)
          ∨ ∃ k, readsAt (inputAmount.dropWhile isSpace) k = true
              ∧ extractDouble ((inputAmount.dropWhile isSpace).take k) = none)
      ∧ ((t.addExpense category inputAmount).thrown = some .invalid_argument
          ↔ t.addExpense category inputAmount = ⟨t, [], some .invalid_argument⟩)
      ∧ (∀ k, readsAt (inputAmount.dropWhile isSpace) k = true →
          t.addExpense category inputAmount
            = t.addExpense category ((inputAmount.dropWhile isSpace).take k))
      ∧ (∀ p, isDecimalString p = true →
          (extractDouble p = none
            ↔ ∃ n, scanNumeral p = some (n, [])
                ∧ maxDouble < roundMagnitude n.magnitude))
      ∧ t.addExpense category "abc".toList = ⟨t, [], some .invalid_argument⟩
      ∧ t.addExpense category [] = ⟨t, [], some .invalid_argument⟩
      ∧ t.addExpense category "12e".toList = ⟨t, [], some .invalid_argument⟩
      ∧ t.addExpense category "1e400".toList = ⟨t, [], some .invalid_argument⟩
      ∧ t.addExpense category "12abc".toList
          = ⟨⟨t.expenses ++ [⟨category, .finite false 12⟩]⟩,
              [.added ⟨category, .finite false 12⟩], none⟩ := by
  refine ⟨?_, ?_, ?_, extractDouble_decimalString, ?_, ?_, ?_, ?_, ?_⟩
  · rw [addExpense_invalid_iff]
    constructor
    · intro hnone
      by_cases hk : ∃ k, readsAt (inputAmount.dropWhile isSpace) k = true
      · obtain ⟨k, hk⟩ := hk
        refine Or.inr ⟨k, hk, ?_⟩
        have := extractDouble_of_readsAt inputAmount k hk
        rw [hnone] at this
        cases hx : extractDouble ((inputAmount.dropWhile isSpace).take k) with
        | none => rfl
        | some p => rw [hx] at this; cases this
      · refine Or.inl (fun k => ?_)
        cases hr : readsAt (inputAmount.dropWhile isSpace) k with
        | false => rfl
        | true => exact False.elim (hk ⟨k, hr⟩)
    · rintro (hall | ⟨k, hk, hnone⟩)
      · unfold extractDouble
        rw [scanNumeral_none_of_reads_nowhere _ hall]
      · have := extractDouble_of_readsAt inputAmount k hk
        rw [hnone] at this
        cases hx : extractDouble inputAmount with
        | none => rfl
        | some p => rw [hx] at this; cases this
  · rw [addExpense_invalid_iff, addExpense_thrown_invalid_iff]
  · intro k hk
    exact addExpense_congr t category _ _ (extractDouble_of_readsAt inputAmount k hk)
  · exact (addExpense_invalid_iff t category _).mpr (by decide!)
  · exact (addExpense_invalid_iff t category _).mpr (by decide!)
  · exact (addExpense_invalid_iff t category _).mpr (by decide!)
  · exact (addExpense_invalid_iff t category _).mpr (by decide!)
  · have hx : extractDouble "12abc".toList = some (.finite false 12, "abc".toList) := by
      decide!
    unfold addExpense
    rw [hx]
    rfl

theorem addExpense_invalid_iff_reads_no_double_witness :
    (ExpenseTracker.mk [⟨"food".toList, .finite false 10⟩]).addExpense "gas".toList
        "12e".toList
      = ⟨⟨[⟨"food".toList, .finite false 10⟩]⟩, [], some .invalid_argument⟩ :=
  (addExpense_invalid_iff_reads_no_double _ _ _).1.mpr (Or.inl (by
    intro k
    have hd : List.dropWhile isSpace "12e".toList = ['1', '2', 'e'] := by decide
    rw [hd]
    rcases k with _ | _ | _ | _ | k
    · decide
    · decide
    · decide
    · decide
    · have ht : List.take (k + 1 + 1 + 1 + 1) ['1', '2', 'e'] = ['1', '2', 'e'] :=
        List.take_of_length_le (by simp)
      have hn : isDecimalString ['1', '2', 'e'] = false := by decide
      unfold readsAt
      rw [ht, hn]
      rfl))

/-- Claim C2: when the amount text parses to a double `a` whose value is
negative, `addExpense` throws `out_of_range`, prints nothing and leaves the
tracker as it was. -/
theorem addExpense_negative (t : ExpenseTracker) (category inputAmount rest : List Char)
    (a : Double) (hparse : extractDouble inputAmount = some (a, rest)) (hneg : a.toRat < 0) :
    t.addExpense category inputAmount = ⟨t, [], some .out_of_range⟩ := by
  have hlt : a.ltZero = true :=
    (ltZero_iff a (extractDouble_isFinite _ _ _ hparse)).mpr hneg
  simp [addExpense, hparse, hlt]

theorem addExpense_negative_witness :
    (ExpenseTracker.mk [⟨"food".toList, .finite false 10⟩]).addExpense "gas".toList
        "-5".toList
      = ⟨⟨[⟨"food".toList, .finite false 10⟩]⟩, [], some .out_of_range⟩ :=
  addExpense_negative _ _ _ [] (.finite true 5) (by decide!) (by decide!)

/-- Claim C3: when the amount text parses to a double `a` whose value is not
negative, `addExpense` succeeds and the sequence becomes the old one followed
by the one entry `(category, a)`; the earlier entries are untouched, and
`displayExpenses` afterwards lists the old entries in order and then the new
entry, last: one occurrence more of it than before, hence exactly one when no
earlier entry equals it. -/
theorem addExpense_appends (t : ExpenseTracker) (category inputAmount rest : List Char)
    (a : Double) (hparse : extractDouble inputAmount = some (a, rest)) (hpos : 0 ≤ a.toRat) :
    t.addExpense category inputAmount
        = ⟨⟨t.expenses ++ [⟨category, a⟩]⟩, [.added ⟨category, a⟩], none⟩
      ∧ ((t.addExpense category inputAmount).tracker.expenses.take t.expenses.length
          = t.expenses)
      ∧ (t.addExpense category inputAmount).tracker.displayExpenses
          = ⟨⟨t.expenses ++ [⟨category, a⟩]⟩,
              .recordedHeader :: (t.expenses.map .entry ++ [.entry ⟨category, a⟩]), none⟩
      ∧ ((t.addExpense category inputAmount).tracker.displayExpenses.out.getLast?
          = some (.entry ⟨category, a⟩))
      ∧ ((t.addExpense category inputAmount).tracker.displayExpenses.out.count
            (.entry ⟨category, a⟩)
          = (t.displayExpenses.out.count (.entry ⟨category, a⟩)) + 1)
      ∧ ((⟨category, a⟩ : Expense) ∉ t.expenses →
          (t.addExpense category inputAmount).tracker.displayExpenses.out.count
            (.entry ⟨category, a⟩) = 1) := by
  have hlt : ¬ a.ltZero = true := fun hl =>
    absurd ((ltZero_iff a (extractDouble_isFinite _ _ _ hparse)).mp hl) (not_lt.mpr hpos)
  have h : t.addExpense category inputAmount
        = ⟨⟨t.expenses ++ [⟨category, a⟩]⟩, [.added ⟨category, a⟩], none⟩ := by
    simp [addExpense, hparse, hlt]
  have hcount : (t.addExpense category inputAmount).tracker.displayExpenses.out.count
        (.entry ⟨category, a⟩)
      = (t.displayExpenses.out.count (.entry ⟨category, a⟩)) + 1 := by
    simp [h, displayExpenses]
    by_cases he : t.expenses = []
    · simp [he]
    · simp [he, List.count_cons]
  refine ⟨h, ?_, ?_, ?_, hcount, ?_⟩
  · simp [h]
  · simp [h, displayExpenses]
  · simp only [h, displayExpenses, List.append_eq_nil, List.cons_ne_nil, and_false, if_false]
    rw [List.map_append, ← List.cons_append, List.getLast?_append]
    rfl
  · intro hnew
    rw [hcount]
    have h0 : t.displayExpenses.out.count (.entry ⟨category, a⟩) = 0 := by
      rw [List.count_eq_zero]
      intro hmem
      by_cases he : t.expenses = []
      · simp [displayExpenses, he] at hmem
      · simp only [displayExpenses, he, if_false, List.mem_cons, List.mem_map] at hmem
        rcases hmem with hmem | ⟨e, he1, he2⟩
        · cases hmem
        · simp only [Out.entry.injEq] at he2
          rw [he2] at he1
          exact hnew he1
    rw [h0]

theorem addExpense_appends_witness :
    (ExpenseTracker.mk [⟨"food".toList, .finite false 10⟩]).addExpense "gas".toList
        "5.5".toList
      = ⟨⟨[⟨"food".toList, .finite false 10⟩, ⟨"gas".toList, .finite false (11 / 2)⟩]⟩,
          [.added ⟨"gas".toList, .finite false (11 / 2)⟩], none⟩ :=
  (addExpense_appends _ _ _ [] (.finite false (11 / 2)) (by decide!) (by decide!)).1

/-- Claim C4, counterexample: trackers reached by `addExpense` on which
`calculateTotal` does not report the sum of the amounts. With two amounts read
from `1e308` it reports an infinity and prints `inf`; with the amounts read
from `0.1` and `0.2` the double it reports is not the sum of the two amounts
held. -/
theorem calculateTotal_differs_from_sum :
    (∀ e ∈ (((ExpenseTracker.mk []).addExpense "rent".toList "1e308".toList).tracker.addExpense
          "loan".toList "1e308".toList).tracker.expenses,
        e.amount = roundToDouble false ((10 : ℚ) ^ 308) ∧ e.amount.isFinite)
      ∧ (((ExpenseTracker.mk []).addExpense "rent".toList "1e308".toList).tracker.addExpense
          "loan".toList "1e308".toList).tracker.calculateTotal.out = [.total (.inf false)]
      ∧ (Out.total (.inf false)).text = "\nTotal spending: $inf\n".toList
      ∧ (((ExpenseTracker.mk []).addExpense "tea".toList "0.1".toList).tracker.addExpense
          "bun".toList "0.2".toList).tracker.expenses
        = [⟨"tea".toList, .finite false (3602879701896397 / 36028797018963968)⟩,
            ⟨"bun".toList, .finite false (3602879701896397 / 18014398509481984)⟩]
      ∧ (ExpenseTracker.mk
            [⟨"tea".toList, .finite false (3602879701896397 / 36028797018963968)⟩,
              ⟨"bun".toList, .finite false (3602879701896397 / 18014398509481984)⟩]
          ).calculateTotal.out
        = [.total (.finite false (1351079888211149 / 4503599627370496))]
      ∧ exactSum [⟨"tea".toList, .finite false (3602879701896397 / 36028797018963968)⟩,
            ⟨"bun".toList, .finite false (3602879701896397 / 18014398509481984)⟩]
        ≠ 1351079888211149 / 4503599627370496 := by
  refine ⟨?_, by decide!, by decide!, by decide!, by decide!, by decide!⟩
  have ht : (((ExpenseTracker.mk []).addExpense "rent".toList "1e308".toList).tracker.addExpense
          "loan".toList "1e308".toList).tracker.expenses
      = [⟨"rent".toList, roundToDouble false ((10 : ℚ) ^ 308)⟩,
          ⟨"loan".toList, roundToDouble false ((10 : ℚ) ^ 308)⟩] := by decide!
  have hf : (roundToDouble false ((10 : ℚ) ^ 308)).isFinite := by
    have : roundToDouble false ((10 : ℚ) ^ 308)
        = .finite false (roundMagnitude ((10 : ℚ) ^ 308)) := by decide!
    rw [this]
    exact roundMagnitude_nonneg _
  rw [ht]
  intro e he
  simp only [List.mem_cons, List.mem_singleton, List.not_mem_nil, or_false] at he
  rcases he with rfl | rfl <;> exact ⟨rfl, hf⟩

/-- Claim C4, amended: `calculateTotal` throws `runtime_error` exactly when the
tracker holds no expense; otherwise it throws nothing and reports the double
obtained by adding the amounts one by one, in the order of the sequence and
every entry counted, to a total that starts at zero, each addition rounded to
the nearest double. When the amounts are finite and every partial sum is
itself a double, what is reported is the exact sum of the amounts, as for
food 10 and gas 5.5, whose total 15.5 is printed as `15.5`. -/
theorem calculateTotal_accumulates_doubles (t : ExpenseTracker) :
    (t.calculateTotal.thrown = some .runtime_error ↔ t.expenses = [])
      ∧ (t.expenses = [] → t.calculateTotal = ⟨t, [], some .runtime_error⟩)
      ∧ (t.expenses ≠ [] →
          t.calculateTotal
            = ⟨t, [.total (t.expenses.foldl (fun total expense => total.add expense.amount)
                  (Double.finite false 0))], none⟩)
      ∧ (t.expenses ≠ [] → (∀ e ∈ t.expenses, e.amount.isFinite) →
          (∀ k, representable (exactSum (t.expenses.take k))) →
          t.calculateTotal = ⟨t, [.total (Double.ofRat (exactSum t.expenses))], none⟩)
      ∧ (ExpenseTracker.mk [⟨"food".toList, .finite false 10⟩,
            ⟨"gas".toList, .finite false (11 / 2)⟩]).calculateTotal.out
          = [.total (.finite false (31 / 2))]
      ∧ (Out.total (.finite false (31 / 2))).text = "\nTotal spending: $15.5\n".toList := by
  refine ⟨?_, ?_, ?_, ?_, by decide!, by decide!⟩
  · by_cases h : t.expenses = [] <;> simp [calculateTotal, h]
  · intro h; simp [calculateTotal, h]
  · intro h; simp [calculateTotal, h]
  · intro h hfin hrep
    have hfold := foldl_add_exact t.expenses (Double.finite false 0) (by decide!) hfin
      (by
        intro k
        have hz : (Double.finite false 0).toRat = 0 := by decide!
        rw [hz, zero_add]
        exact hrep k)
    have hz : (Double.finite false 0).toRat = 0 := by decide!
    rw [hz, zero_add] at hfold
    simp [calculateTotal, h, hfold]

theorem calculateTotal_accumulates_doubles_witness :
    (ExpenseTracker.mk [⟨"food".toList, .finite false 10⟩,
        ⟨"gas".toList, .finite false (11 / 2)⟩]).calculateTotal
      = ⟨⟨[⟨"food".toList, .finite false 10⟩, ⟨"gas".toList, .finite false (11 / 2)⟩]⟩,
          [.total (Double.ofRat
            (exactSum [⟨"food".toList, .finite false 10⟩,
              ⟨"gas".toList, .finite false (11 / 2)⟩]))], none⟩ :=
  (calculateTotal_accumulates_doubles
      ⟨[⟨"food".toList, .finite false 10⟩, ⟨"gas".toList, .finite false (11 / 2)⟩]⟩).2.2.2.1
    (by decide)
    (by
      intro e he
      simp only [List.mem_cons, List.mem_singleton, List.not_mem_nil, or_false] at he
      rcases he with rfl | rfl
      · exact (by norm_num : (0 : ℚ) ≤ 10)
      · exact (by norm_num : (0 : ℚ) ≤ 11 / 2))
    (by
      intro k
      rcases k with _ | _ | k
      · unfold representable; decide!
      · unfold representable; decide!
      · have ht : List.take (k + 1 + 1)
            [(⟨"food".toList, .finite false 10⟩ : Expense),
              ⟨"gas".toList, .finite false (11 / 2)⟩]
            = [⟨"food".toList, .finite false 10⟩, ⟨"gas".toList, .finite false (11 / 2)⟩] :=
          List.take_of_length_le (by simp)
        rw [ht]
        unfold representable; decide!)

/-- Claim C6: `searchExpense` never throws and leaves the tracker as it was; it
prints the entries whose category equals the one searched, in the order of the
sequence, and then the not-found message exactly when no entry has that
category; searching food among food 10, gas 5, food 2 prints food 10 and
food 2. -/
theorem searchExpense_reports_matches (t : ExpenseTracker) (c : List Char) :
    t.searchExpense c
        = ⟨t, (t.expenses.filter (fun e => decide (e.category = c))).map .entry
              ++ (if t.expenses.filter (fun e => decide (e.category = c)) = []
                  then [.notFound c] else []), none⟩
      ∧ (Out.notFound c ∈ (t.searchExpense c).out ↔ ∀ e ∈ t.expenses, e.category ≠ c)
      ∧ ((ExpenseTracker.mk [⟨"food".toList, .finite false 10⟩,
            ⟨"gas".toList, .finite false 5⟩,
            ⟨"food".toList, .finite false 2⟩]).searchExpense "food".toList).out
          = [.entry ⟨"food".toList, .finite false 10⟩,
              .entry ⟨"food".toList, .finite false 2⟩] := by
  refine ⟨searchExpense_eq t c, ?_, by decide!⟩
  rw [searchExpense_eq]
  by_cases hf : t.expenses.filter (fun e => decide (e.category = c)) = []
  · simp [hf]
    simpa [List.filter_eq_nil_iff] using hf
  · simp [hf]
    simpa [List.filter_eq_nil_iff] using hf

/-- Claim C7, counterexample: from the file `food 12abc 5` the load yields
food 12 and abc 5: the pair whose amount token `12abc` is not a numeral is
kept, and `abc`, which is no token of the file, becomes a category; the
reading by whole tokens yields nothing. -/
theorem load_splits_amount_token :
    (ExpenseTracker.create (some "food 12abc 5".toList)).tracker.expenses
        = [⟨"food".toList, .finite false 12⟩, ⟨"abc".toList, .finite false 5⟩]
      ∧ tokens "food 12abc 5".toList = ["food".toList, "12abc".toList, "5".toList]
      ∧ isDecimalString "12abc".toList = false
      ∧ tokenPairs (tokens "food 12abc 5".toList) = [] := by
  decide!

/-- Claim C7, amended: the load never throws; without a file the tracker is
left as it was; with a file it appends the pairs of the reading `splitPairs` of
the tokens of the file, in file order: a category is a whole token, the amount
is the double read from the number that starts the next token, what follows
the number in that token is read as the next token, and everything from the
first token from which no double is read (it starts with no number, or with
one beyond the range of the doubles, as `1e400`) is dropped. The bound on the
number of pairs does not cut the reading short, and the pairs of the reading
by whole tokens come first. -/
theorem load_reads_split_pairs (t : ExpenseTracker) (content : List Char) (k : Nat) :
    t.loadExpensesFromFile (some content)
        = ⟨⟨t.expenses ++ splitPairs (content.length + 1 + k) (tokens content)⟩,
            [.welcomeBack], none⟩
      ∧ t.loadExpensesFromFile none = ⟨t, [.startingFresh], none⟩
      ∧ (ExpenseTracker.create none).tracker.expenses = []
      ∧ loadLoop (content.length + 1 + k) content = readExpenses content
      ∧ tokenPairs (tokens content) <+: (ExpenseTracker.create (some content)).tracker.expenses
      ∧ (ExpenseTracker.create (some "food 1e400 gas 5".toList)).tracker.expenses = []
      ∧ (ExpenseTracker.create (some "food 10 gas 12e rent 7".toList)).tracker.expenses
          = [⟨"food".toList, .finite false 10⟩] := by
  have h1 : readExpenses content = splitPairs (content.length + 1 + k) (tokens content) :=
    loadLoop_eq_splitPairs _ _ content (by omega) (by omega)
  have h2 : loadLoop (content.length + 1 + k) content
      = splitPairs (content.length + 1 + k) (tokens content) :=
    loadLoop_eq_splitPairs _ _ content (by omega) (by omega)
  refine ⟨by simp [loadExpensesFromFile, h1], rfl, rfl, by rw [h1, h2], ?_, by decide!,
    by decide!⟩
  simpa [create, loadExpensesFromFile, readExpenses]
    using tokenPairs_prefix_loadLoop (content.length + 1) content (by omega)

/-- Claim C8, the code at the failing input: the load of the file `food -5`
puts an expense with the amount -5 in the tracker, and it stays there through
a later `addExpense`. -/
theorem load_keeps_negative_amount :
    (ExpenseTracker.create (some "food -5\n".toList)).tracker.expenses
        = [⟨"food".toList, .finite true 5⟩]
      ∧ ((ExpenseTracker.create (some "food -5\n".toList)).tracker.addExpense
            "gas".toList "3".toList).tracker.expenses
          = [⟨"food".toList, .finite true 5⟩, ⟨"gas".toList, .finite false 3⟩]
      ∧ (Double.finite true 5).toRat = -5
      ∧ ¬ ∀ e ∈ (ExpenseTracker.create (some "food -5\n".toList)).tracker.expenses,
          0 ≤ e.amount.toRat := by
  decide!

/-- Claim C10, the code at the failing input: whatever the tracker holds, the
line `done` does not end the entry loop; it is taken as a category, the next
token is read as its amount, and the expense done 5 is appended. From an
absent file and the input `done`, `5`, `DONE` the run saves the file
`done 5`. -/
theorem lowercase_done_is_a_category (fuel : Nat) (t : ExpenseTracker)
    (rest category amount : List Char) (out : List Out) :
    entryLoop (fuel + 1) t ⟨true, "done\n5\n".toList ++ rest⟩ category amount out
        = entryLoop fuel ⟨t.expenses ++ [⟨"done".toList, .finite false 5⟩]⟩ ⟨true, rest⟩
            "done".toList "5".toList
            (out ++ [.promptCategory, .promptAmount "done".toList,
              .added ⟨"done".toList, .finite false 5⟩])
      ∧ (main 3 none "done\n5\nDONE\n".toList).map (fun r => (r.tracker, r.file))
          = some (⟨[⟨"done".toList, .finite false 5⟩]⟩, some "done 5\n".toList) := by
  refine ⟨?_, by decide!⟩
  have hg : getline ⟨true, "done\n5\n".toList ++ rest⟩ category
      = (⟨true, "5\n".toList ++ rest⟩, "done".toList) := by
    simp [getline, List.span_eq_take_drop, List.takeWhile_cons, List.dropWhile_cons]
  have he : extractString ⟨true, "5\n".toList ++ rest⟩ amount
      = (⟨true, '\n' :: rest⟩, "5".toList) := by
    simp [extractString, extractWord, isSpace, List.span_eq_take_drop, List.takeWhile_cons,
      List.dropWhile_cons]
  have hi : ignoreLine ⟨true, '\n' :: rest⟩ = ⟨true, rest⟩ := by
    simp [ignoreLine, List.dropWhile_cons]
  have ha : t.addExpense "done".toList "5".toList
      = ⟨⟨t.expenses ++ [⟨"done".toList, .finite false 5⟩]⟩,
          [.added ⟨"done".toList, .finite false 5⟩], none⟩ :=
    by
      have hx : extractDouble "5".toList = some (Double.finite false 5, []) := by decide!
      unfold addExpense
      rw [hx]
      rfl
  rw [entryLoop]
  simp only [hg, he, hi, ha]
  simp

end ExpenseApp
